import Mathlib

/-!
Shallow embedding of the falcon-exchange single-symbol matching-engine core
(`src/order.hpp`, `src/price_level.hpp`, `src/order_book.hpp`,
`src/event_queue.hpp`, `src/matching_engine.hpp`) together with proofs about
its spec-level properties.

Modelling conventions:
* machine integers (`int64_t`, `uint64_t`, `size_t`) are modelled as `Int`
  and `Nat`; no operation in the verified fragment can overflow an `int64_t`
  starting from in-range inputs, and the ring-buffer wrap-around is explicit
  in the source (`& (N-1)`), so the `Nat` model with the same mask is exact;
* wall-clock timestamps are omitted (they are write-only fields);
* `std::shared_ptr<Order>` aliasing is modelled by storing order values in
  the book and threading the updated copies explicitly: every mutation of a
  shared order in the C++ code happens while the matching thread holds the
  unique live access path, so explicit state passing is faithful;
* `std::map<int64_t, PriceLevel>` is modelled as a list of levels sorted in
  best-price-first order: `asks` ascending by price (the C++ map iterated
  from `begin()`), `bids` descending by price (the C++ map iterated from
  `rbegin()`).  All map accesses in the source are `find` by exact key,
  best-level access, and ordered traversal, which this realizes exactly.
-/

namespace Falcon

/-- Mirrors `enum class OrderSide` (src/order.hpp). -/
inductive OrderSide : Type
  | BUY
  | SELL
deriving DecidableEq

/-- Mirrors `enum class OrderType` (src/order.hpp). -/
inductive OrderType : Type
  | LIMIT
  | MARKET
deriving DecidableEq

/-- Mirrors `enum class OrderStatus` (src/order.hpp). -/
inductive OrderStatus : Type
  | NEW
  | PARTIALLY_FILLED
  | FILLED
  | CANCELLED
  | REJECTED
deriving DecidableEq

/-- Mirrors `struct Order` (src/order.hpp); the wall-clock `timestamp`
field is omitted (it is never read by the engine). -/
structure Order : Type where
  id : Nat
  symbol : String
  side : OrderSide
  type : OrderType
  price : Int
  quantity : Int
  filled_quantity : Int
  status : OrderStatus
  sequence_number : Nat
deriving DecidableEq

/-- `Order::remaining_quantity` (src/order.hpp). -/
def Order.remaining_quantity (o : Order) : Int :=
  o.quantity - o.filled_quantity

/-- `Order::is_filled` (src/order.hpp): `filled_quantity >= quantity`. -/
def Order.is_filled (o : Order) : Bool :=
  decide (o.quantity ≤ o.filled_quantity)

/-- `Order::is_active` (src/order.hpp). -/
def Order.is_active (o : Order) : Bool :=
  decide (o.status = OrderStatus.NEW) || decide (o.status = OrderStatus.PARTIALLY_FILLED)

/-- Mirrors `class PriceLevel` (src/price_level.hpp): a FIFO deque of the
orders resting at one price, plus the cached aggregate quantity. -/
structure PriceLevel : Type where
  price : Int
  total_quantity : Int
  orders : List Order
deriving DecidableEq

/-- `PriceLevel::add_order` (src/price_level.hpp): push_back and grow the
cached total by the order's remaining quantity. -/
def PriceLevel.add_order (l : PriceLevel) (o : Order) : PriceLevel :=
  { l with orders := l.orders ++ [o],
           total_quantity := l.total_quantity + o.remaining_quantity }

/-- The body of `PriceLevel::remove_order`: drop the first order whose id
matches and report its stored remaining quantity (0 when absent). -/
def removeById : List Order → Nat → List Order × Int
  | [], _ => ([], 0)
  | o :: rest, i =>
      if o.id = i then (rest, o.remaining_quantity)
      else
        let r := removeById rest i
        (o :: r.1, r.2)

/-- `PriceLevel::remove_order` (src/price_level.hpp): erase the first order
with the given id and shrink the total by that stored order's remaining. -/
def PriceLevel.remove_order (l : PriceLevel) (o : Order) : PriceLevel :=
  let r := removeById l.orders o.id
  { l with orders := r.1, total_quantity := l.total_quantity - r.2 }

/-- `PriceLevel::front_order` (src/price_level.hpp). -/
def PriceLevel.front_order (l : PriceLevel) : Option Order :=
  l.orders.head?

/-- `PriceLevel::empty` (src/price_level.hpp). -/
def PriceLevel.empty (l : PriceLevel) : Bool :=
  l.orders.isEmpty

/-- `PriceLevel::find_order` (src/price_level.hpp): first order with the id. -/
def PriceLevel.find_order (l : PriceLevel) (i : Nat) : Option Order :=
  l.orders.find? (fun o => decide (o.id = i))

/-- `PriceLevel::update_total_quantity` (src/price_level.hpp). -/
def PriceLevel.update_total_quantity (l : PriceLevel) (delta : Int) : PriceLevel :=
  { l with total_quantity := l.total_quantity + delta }

/-- Mirrors `class OrderBook` (src/order_book.hpp).  Each side of the
`std::map<int64_t, PriceLevel>` is realized as a list of levels in
best-first order: `asks` sorted by strictly increasing price (map order from
`begin()`), `bids` by strictly decreasing price (map order from `rbegin()`). -/
structure OrderBook : Type where
  symbol : String
  bids : List PriceLevel
  asks : List PriceLevel
  sequence_counter : Nat
deriving DecidableEq

/-- `OrderBook::add_to_side` (src/order_book.hpp): locate the level keyed by
the order's price, creating it when absent (`side.emplace`), and append the
order.  `cmp a b` decides whether price `a` is listed before price `b` on
this side (asks: `a < b`; bids: `a > b`), realizing the map's key order. -/
def insertOrder (cmp : Int → Int → Bool) : List PriceLevel → Order → List PriceLevel
  | [], o => [PriceLevel.add_order ⟨o.price, 0, []⟩ o]
  | l :: rest, o =>
      if cmp o.price l.price then
        PriceLevel.add_order ⟨o.price, 0, []⟩ o :: l :: rest
      else if o.price = l.price then
        l.add_order o :: rest
      else
        l :: insertOrder cmp rest o

/-- Ask-side key order: lowest price first. -/
def askBefore (a b : Int) : Bool := decide (a < b)

/-- Bid-side key order: highest price first. -/
def bidBefore (a b : Int) : Bool := decide (b < a)

/-- `OrderBook::add_order` (src/order_book.hpp): reject on symbol mismatch,
stamp `sequence_number = ++sequence_counter`, insert on the order's side.
Also returns the stamped order (the C++ code updates the shared object). -/
def OrderBook.add_order (b : OrderBook) (o : Order) : OrderBook × Bool × Order :=
  if o.symbol ≠ b.symbol then (b, false, o)
  else
    let o2 := { o with sequence_number := b.sequence_counter + 1 }
    match o2.side with
    | OrderSide.BUY =>
        ({ b with bids := insertOrder bidBefore b.bids o2,
                  sequence_counter := b.sequence_counter + 1 }, true, o2)
    | OrderSide.SELL =>
        ({ b with asks := insertOrder askBefore b.asks o2,
                  sequence_counter := b.sequence_counter + 1 }, true, o2)

/-- `OrderBook::remove_from_side` (src/order_book.hpp): find the level keyed
by the order's price, remove the order from it, erase the level if now
empty. -/
def removeFromSide : List PriceLevel → Order → List PriceLevel × Bool
  | [], _ => ([], false)
  | l :: rest, o =>
      if l.price = o.price then
        let l2 := l.remove_order o
        ((if l2.empty then rest else l2 :: rest), true)
      else
        let r := removeFromSide rest o
        (l :: r.1, r.2)

/-- `OrderBook::remove_order` (src/order_book.hpp). -/
def OrderBook.remove_order (b : OrderBook) (o : Order) : OrderBook × Bool :=
  match o.side with
  | OrderSide.BUY =>
      let r := removeFromSide b.bids o
      ({ b with bids := r.1 }, r.2)
  | OrderSide.SELL =>
      let r := removeFromSide b.asks o
      ({ b with asks := r.1 }, r.2)

/-- One side of `OrderBook::cancel_order` (src/order_book.hpp): walk the
levels, and in the first level containing the id, set the found order's
status to CANCELLED, remove it, and erase the level if now empty.  (The C++
walks each `std::map` in key order; with the ids unique — as in every
reachable book — which traversal order is used is unobservable.) -/
def cancelInSide : List PriceLevel → Nat → List PriceLevel × Option Order
  | [], _ => ([], none)
  | l :: rest, i =>
      match l.find_order i with
      | some o =>
          let o2 := { o with status := OrderStatus.CANCELLED }
          let l2 := l.remove_order o2
          ((if l2.empty then rest else l2 :: rest), some o2)
      | none =>
          let r := cancelInSide rest i
          (l :: r.1, r.2)

/-- `OrderBook::cancel_order` (src/order_book.hpp): search the bid side,
then the ask side; also reports the cancelled order (whose status mutation
the C++ code performs through the shared pointer). -/
def OrderBook.cancel_order (b : OrderBook) (i : Nat) : OrderBook × Option Order :=
  match cancelInSide b.bids i with
  | (bids2, some o) => ({ b with bids := bids2 }, some o)
  | (_, none) =>
      match cancelInSide b.asks i with
      | (asks2, some o) => ({ b with asks := asks2 }, some o)
      | (_, none) => (b, none)

/-- `OrderBook::best_bid` (src/order_book.hpp): highest bid price
(`bids_.rbegin()`), i.e. the head of the descending bid list. -/
def OrderBook.best_bid (b : OrderBook) : Option Int :=
  b.bids.head?.map PriceLevel.price

/-- `OrderBook::best_ask` (src/order_book.hpp): lowest ask price
(`asks_.begin()`), i.e. the head of the ascending ask list. -/
def OrderBook.best_ask (b : OrderBook) : Option Int :=
  b.asks.head?.map PriceLevel.price

/-- Mirrors `struct Trade` (src/matching_engine.hpp); symbol and wall-clock
timestamp omitted (the symbol is the engine's fixed symbol). -/
structure Trade : Type where
  trade_id : Nat
  buy_order_id : Nat
  sell_order_id : Nat
  price : Int
  quantity : Int
deriving DecidableEq

/-- Mirrors `MatchingEngine::Statistics` (src/matching_engine.hpp). -/
structure Statistics : Type where
  orders_processed : Nat
  trades_executed : Nat
  orders_cancelled : Nat
deriving DecidableEq

/-- The matching-thread-owned state of `class MatchingEngine`
(src/matching_engine.hpp): the book, the trade log (standing for the
synchronous trade-callback stream, in emission order), the trade id counter
and the statistics. -/
structure EngineState : Type where
  symbol : String
  book : OrderBook
  trades : List Trade
  trade_id_counter : Nat
  stats : Statistics
deriving DecidableEq

/-- The per-order part of `MatchingEngine::execute_trade`: grow
`filled_quantity` and set status FILLED when fully consumed, else
PARTIALLY_FILLED. -/
def fillUpdate (o : Order) (q : Int) : Order :=
  let o2 := { o with filled_quantity := o.filled_quantity + q }
  if o2.is_filled then { o2 with status := OrderStatus.FILLED }
  else { o2 with status := OrderStatus.PARTIALLY_FILLED }

/-- `MatchingEngine::execute_trade` (src/matching_engine.hpp): update both
orders, mint a trade id, record the trade (callback) and bump
`trades_executed`.  Returns the updated buy and sell orders. -/
def EngineState.execute_trade (st : EngineState) (buy sell : Order)
    (price qty : Int) : EngineState × Order × Order :=
  let buy2 := fillUpdate buy qty
  let sell2 := fillUpdate sell qty
  let tid := st.trade_id_counter + 1
  let t : Trade := ⟨tid, buy2.id, sell2.id, price, qty⟩
  ({ st with trades := st.trades ++ [t],
             trade_id_counter := tid,
             stats := { st.stats with trades_executed := st.stats.trades_executed + 1 } },
   buy2, sell2)

/-- `MatchingEngine::can_match` (src/matching_engine.hpp). -/
def can_match (b : OrderBook) (o : Order) : Bool :=
  match o.side with
  | OrderSide.BUY =>
      match b.best_ask with
      | none => false
      | some a => decide (o.type = OrderType.MARKET) || decide (a ≤ o.price)
  | OrderSide.SELL =>
      match b.best_bid with
      | none => false
      | some bb => decide (o.type = OrderType.MARKET) || decide (o.price ≤ bb)

/-- `MatchingEngine::try_match` (src/matching_engine.hpp).  Returns the new
engine state, the updated incoming order, and the `matched` flag.  The
destructuring of the best level's order list combines the source's
`front_order()` null check with the in-place mutation of the front order
that the C++ code performs through the shared pointer; `update_total_quantity`
is applied with `-match_quantity` exactly as in the source, and a fully
filled resting order is removed via `OrderBook::remove_order`. -/
def try_match (st : EngineState) (inc : Order) : EngineState × Order × Bool :=
  match inc.side with
  | OrderSide.BUY =>
      match st.book.asks with
      | [] => (st, inc, false)
      | lvl :: restLvls =>
          if lvl.empty then (st, inc, false)
          else if decide (inc.type = OrderType.LIMIT) && decide (inc.price < lvl.price) then
            (st, inc, false)
          else
            match lvl.orders with
            | [] => (st, inc, false)
            | resting :: ros =>
                if ! resting.is_active then (st, inc, false)
                else
                  let m := min inc.remaining_quantity resting.remaining_quantity
                  let r := st.execute_trade inc resting resting.price m
                  let resting2 := r.2.2
                  let lvl2 := ({ lvl with orders := resting2 :: ros }).update_total_quantity (-m)
                  let book2 := { r.1.book with asks := lvl2 :: restLvls }
                  let book3 := if resting2.is_filled then (book2.remove_order resting2).1 else book2
                  ({ r.1 with book := book3 }, r.2.1, true)
  | OrderSide.SELL =>
      match st.book.bids with
      | [] => (st, inc, false)
      | lvl :: restLvls =>
          if lvl.empty then (st, inc, false)
          else if decide (inc.type = OrderType.LIMIT) && decide (lvl.price < inc.price) then
            (st, inc, false)
          else
            match lvl.orders with
            | [] => (st, inc, false)
            | resting :: ros =>
                if ! resting.is_active then (st, inc, false)
                else
                  let m := min inc.remaining_quantity resting.remaining_quantity
                  let r := st.execute_trade resting inc resting.price m
                  let resting2 := r.2.1
                  let lvl2 := ({ lvl with orders := resting2 :: ros }).update_total_quantity (-m)
                  let book2 := { r.1.book with bids := lvl2 :: restLvls }
                  let book3 := if resting2.is_filled then (book2.remove_order resting2).1 else book2
                  ({ r.1 with book := book3 }, r.2.2, true)

/-- Total number of orders resting on one side. -/
def sideOrderCount (ls : List PriceLevel) : Nat :=
  (ls.map (fun l => l.orders.length)).sum

/-- The side opposing an incoming order of side `s`. -/
def opposing (b : OrderBook) (s : OrderSide) : List PriceLevel :=
  match s with
  | OrderSide.BUY => b.asks
  | OrderSide.SELL => b.bids

/-- Fuel bound making the matching loop of `match_limit_order` /
`match_market_order` total.  Every iteration of the C++ `while` loop either
removes a resting order from the opposing side, renders the incoming order
inactive (the guard then fails), or leaves the front of the best opposing
level inactive (the next `try_match` then reports no match); so the loop
runs at most `sideOrderCount + 2` times, and this fuel reproduces the C++
loop exactly. -/
def loopFuel (b : OrderBook) (s : OrderSide) : Nat :=
  sideOrderCount (opposing b s) + 2

/-- The `while (order->is_active() && can_match(order))` loop of
`MatchingEngine::match_limit_order` (src/matching_engine.hpp). -/
def matchLoop : Nat → EngineState → Order → EngineState × Order
  | 0, st, o => (st, o)
  | Nat.succ fuel, st, o =>
      if o.is_active && can_match st.book o then
        if (try_match st o).2.2 then matchLoop fuel (try_match st o).1 (try_match st o).2.1
        else ((try_match st o).1, (try_match st o).2.1)
      else (st, o)

/-- `MatchingEngine::match_limit_order` (src/matching_engine.hpp): match
while possible, then rest the remainder in the book. -/
def match_limit_order (st : EngineState) (o : Order) : EngineState × Order :=
  if (matchLoop (loopFuel st.book o.side) st o).2.is_active
      && decide (0 < (matchLoop (loopFuel st.book o.side) st o).2.remaining_quantity) then
    ({ (matchLoop (loopFuel st.book o.side) st o).1 with
        book := ((matchLoop (loopFuel st.book o.side) st o).1.book.add_order
          (matchLoop (loopFuel st.book o.side) st o).2).1 },
     ((matchLoop (loopFuel st.book o.side) st o).1.book.add_order
        (matchLoop (loopFuel st.book o.side) st o).2).2.2)
  else matchLoop (loopFuel st.book o.side) st o

/-- The matching loop of `MatchingEngine::match_market_order`
(src/matching_engine.hpp): like `matchLoop`, but a failed `try_match`
marks the order REJECTED before breaking. -/
def marketLoop : Nat → EngineState → Order → EngineState × Order
  | 0, st, o => (st, o)
  | Nat.succ fuel, st, o =>
      if o.is_active && can_match st.book o then
        if (try_match st o).2.2 then marketLoop fuel (try_match st o).1 (try_match st o).2.1
        else ((try_match st o).1, { (try_match st o).2.1 with status := OrderStatus.REJECTED })
      else (st, o)

/-- `MatchingEngine::match_market_order` (src/matching_engine.hpp): market
orders never rest; any remainder is REJECTED after the loop. -/
def match_market_order (st : EngineState) (o : Order) : EngineState × Order :=
  if decide (0 < (marketLoop (loopFuel st.book o.side) st o).2.remaining_quantity) then
    ((marketLoop (loopFuel st.book o.side) st o).1,
     { (marketLoop (loopFuel st.book o.side) st o).2 with status := OrderStatus.REJECTED })
  else marketLoop (loopFuel st.book o.side) st o

/-- `MatchingEngine::process_new_order` (src/matching_engine.hpp): bump
`orders_processed`, dispatch on the order type.  The returned order is the
final state of the shared order object, as the order-update callback
observes it. -/
def process_new_order (st : EngineState) (o : Order) : EngineState × Order :=
  if o.type = OrderType.MARKET then
    match_market_order
      { st with stats := { st.stats with
          orders_processed := st.stats.orders_processed + 1 } } o
  else
    match_limit_order
      { st with stats := { st.stats with
          orders_processed := st.stats.orders_processed + 1 } } o

/-- `MatchingEngine::process_cancel_order` (src/matching_engine.hpp). -/
def process_cancel_order (st : EngineState) (i : Nat) : EngineState :=
  match (st.book.cancel_order i).2 with
  | some _ =>
      { st with book := (st.book.cancel_order i).1,
                stats := { st.stats with orders_cancelled := st.stats.orders_cancelled + 1 } }
  | none => st

/-- `MatchingEngine::process_replace_order` (src/matching_engine.hpp):
cancel the old id, then process the replacement as a new order. -/
def process_replace_order (st : EngineState) (old_id : Nat) (o : Order) :
    EngineState × Order :=
  let st1 := process_cancel_order st old_id
  process_new_order st1 o

/-- Mirrors `enum class EventType` (src/event_queue.hpp). -/
inductive EventType : Type
  | NEW_ORDER
  | CANCEL_ORDER
  | REPLACE_ORDER
  | SHUTDOWN
deriving DecidableEq

/-- Mirrors `struct OrderEvent` (src/event_queue.hpp).  The C++ `order`
field is a shared pointer that is always set on NEW_ORDER / REPLACE_ORDER
events (the only paths that read it); it is modelled as a plain order. -/
structure OrderEvent : Type where
  type : EventType
  order : Order
  cancel_order_id : Nat
  new_price : Int
  new_quantity : Int
deriving DecidableEq

/-- `MatchingEngine::process_event` (src/matching_engine.hpp). -/
def process_event (st : EngineState) (e : OrderEvent) : EngineState :=
  match e.type with
  | EventType.NEW_ORDER => (process_new_order st e.order).1
  | EventType.CANCEL_ORDER => process_cancel_order st e.cancel_order_id
  | EventType.REPLACE_ORDER => (process_replace_order st e.cancel_order_id e.order).1
  | EventType.SHUTDOWN => st

/-- Mirrors `class LockFreeQueue<Size>` (src/event_queue.hpp): ring buffer
with masked cursors.  The functional state is the two cursors and the
buffer contents; the SPSC atomics discipline is a memory-ordering concern
outside the functional model. -/
structure LockFreeQueue (N : Nat) : Type where
  head : Nat
  tail : Nat
  buffer : Nat → OrderEvent

/-- `LockFreeQueue::push` (src/event_queue.hpp); `(tail + 1) &&& (N - 1)`
is the source's `next_tail`. -/
def LockFreeQueue.push {N : Nat} (q : LockFreeQueue N) (e : OrderEvent) :
    LockFreeQueue N × Bool :=
  if (q.tail + 1) &&& (N - 1) = q.head then (q, false)
  else
    ({ q with buffer := fun i => if i = q.tail then e else q.buffer i,
              tail := (q.tail + 1) &&& (N - 1) }, true)

/-- `LockFreeQueue::pop` (src/event_queue.hpp). -/
def LockFreeQueue.pop {N : Nat} (q : LockFreeQueue N) :
    LockFreeQueue N × Option OrderEvent :=
  if q.head = q.tail then (q, none)
  else
    ({ q with head := (q.head + 1) &&& (N - 1) }, some (q.buffer q.head))

/-- Number of stored events (equals the C++ `size()` value
`(tail - head) & (N-1)` whenever both cursors are in range and `N` is a
power of two). -/
def LockFreeQueue.size {N : Nat} (q : LockFreeQueue N) : Nat :=
  (q.tail + N - q.head) % N

/-- Abstraction function: the stored events from oldest to newest. -/
def LockFreeQueue.toList {N : Nat} (q : LockFreeQueue N) : List OrderEvent :=
  (List.range q.size).map (fun i => q.buffer ((q.head + i) % N))

/-! ## Specification-level predicates -/

/-- What holds of every order resting in a level of price `p` on side
`side` in a reachable book state. -/
def levelOrderWF (side : OrderSide) (p : Int) (o : Order) : Prop :=
  o.price = p ∧ o.side = side ∧ o.is_active = true ∧ 0 < o.remaining_quantity

/-- The per-level invariant of a reachable book: the level is non-empty,
its orders match the level's price and side, are active with positive
remainder, and the cached total is the sum of the remainders. -/
def levelWF (side : OrderSide) (l : PriceLevel) : Prop :=
  l.orders ≠ [] ∧ (∀ o ∈ l.orders, levelOrderWF side l.price o) ∧
  l.total_quantity = (l.orders.map Order.remaining_quantity).sum

/-- A side is a strictly `R`-sorted list of well-formed levels. -/
def sideWF (side : OrderSide) (R : Int → Int → Prop) (ls : List PriceLevel) : Prop :=
  List.Pairwise (fun a b => R a.price b.price) ls ∧ ∀ l ∈ ls, levelWF side l

/-- The book invariant: both sides sorted best-first and well-formed, and
every bid price lies strictly below every ask price (uncrossed). -/
def bookWF (b : OrderBook) : Prop :=
  sideWF OrderSide.BUY (fun a c => c < a) b.bids ∧
  sideWF OrderSide.SELL (fun a c => a < c) b.asks ∧
  ∀ lb ∈ b.bids, ∀ la ∈ b.asks, lb.price < la.price

/-- The ids of the orders resting on one side, in book order. -/
def sideIds (ls : List PriceLevel) : List Nat :=
  (ls.map (fun l => l.orders.map Order.id)).flatten

/-- All ids resting in the book. -/
def bookIds (b : OrderBook) : List Nat :=
  sideIds b.bids ++ sideIds b.asks

/-- The passive (resting) party of a trade produced while an order of side
`s` was the aggressor. -/
def passiveId (s : OrderSide) (t : Trade) : Nat :=
  match s with
  | OrderSide.BUY => t.sell_order_id
  | OrderSide.SELL => t.buy_order_id

/-- The front (oldest) order of the best level opposing side `s`. -/
def bestOpposingFront (b : OrderBook) (s : OrderSide) : Option Order :=
  match (opposing b s).head? with
  | none => none
  | some l => l.orders.head?

/-- Order id `a` rests strictly before order id `c` within some single
level of side `ls` (same price, earlier arrival). -/
def restsBefore (ls : List PriceLevel) (a c : Nat) : Prop :=
  ∃ l ∈ ls, ∃ pre x mid y post,
    l.orders = pre ++ x :: mid ++ y :: post ∧ x.id = a ∧ y.id = c

/-- The book produced by a successful `try_match` step: on the opposing
side's best level `lvl` (whose remaining queue behind the front is `ros`),
the front order has been replaced by its updated copy `r2`, the level total
decreased by the matched quantity `m`, and, when `r2` is fully filled, `r2`
removed again via `OrderBook::remove_order`.  This is a description derived
from `try_match`, proved equal to it in `try_match_cases`. -/
def steppedBook (bk : OrderBook) (s : OrderSide) (lvl : PriceLevel)
    (rest : List PriceLevel) (ros : List Order) (r2 : Order) (m : Int) : OrderBook :=
  match s with
  | OrderSide.BUY =>
      if r2.is_filled then
        (OrderBook.remove_order
          { bk with asks :=
              ({ lvl with orders := r2 :: ros }).update_total_quantity (-m) :: rest } r2).1
      else
        { bk with asks :=
            ({ lvl with orders := r2 :: ros }).update_total_quantity (-m) :: rest }
  | OrderSide.SELL =>
      if r2.is_filled then
        (OrderBook.remove_order
          { bk with bids :=
              ({ lvl with orders := r2 :: ros }).update_total_quantity (-m) :: rest } r2).1
      else
        { bk with bids :=
            ({ lvl with orders := r2 :: ros }).update_total_quantity (-m) :: rest }

/-- The trade logged by a successful `try_match` step: the buy and sell ids
are assigned from the incoming order `o` and resting order `r` according to
the aggressor's side, at the resting order's price. -/
def sideTrade (s : OrderSide) (tid : Nat) (o r : Order) (m : Int) : Trade :=
  match s with
  | OrderSide.BUY => ⟨tid, o.id, r.id, r.price, m⟩
  | OrderSide.SELL => ⟨tid, r.id, o.id, r.price, m⟩

/-- A concrete event used by witness instantiations. -/
def witEvent : OrderEvent :=
  ⟨EventType.SHUTDOWN,
   ⟨0, "FALCON", OrderSide.BUY, OrderType.LIMIT, 0, 0, 0, OrderStatus.NEW, 0⟩, 0, 0, 0⟩

/-- A concrete empty four-slot queue used by the C9 witness. -/
def witQueue : LockFreeQueue 4 := ⟨0, 0, fun _ => witEvent⟩

/-- A concrete resting bid used by witness states. -/
def witOrder1 : Order :=
  ⟨1, "FALCON", OrderSide.BUY, OrderType.LIMIT, 100, 10, 0, OrderStatus.NEW, 1⟩

/-- A concrete one-order book used by witness states. -/
def witBook : OrderBook := ⟨"FALCON", [⟨100, 10, [witOrder1]⟩], [], 1⟩

/-- A concrete engine state used by witness instantiations. -/
def witState : EngineState := ⟨"FALCON", witBook, [], 0, ⟨1, 0, 0⟩⟩

/-- A concrete non-crossing sell order used by witness instantiations. -/
def witNewSell : Order :=
  ⟨3, "FALCON", OrderSide.SELL, OrderType.LIMIT, 200, 5, 0, OrderStatus.NEW, 0⟩

/-- A concrete NEW_ORDER event used by witness instantiations. -/
def witEventNew : OrderEvent := ⟨EventType.NEW_ORDER, witNewSell, 0, 0, 0⟩

/-- A concrete market buy order used by witness instantiations. -/
def witMarketBuy : Order :=
  ⟨4, "FALCON", OrderSide.BUY, OrderType.MARKET, 0, 25, 0, OrderStatus.NEW, 0⟩

/-- A concrete resting ask used by witness states. -/
def witAsk : Order :=
  ⟨5, "FALCON", OrderSide.SELL, OrderType.LIMIT, 150, 20, 0, OrderStatus.NEW, 2⟩

/-- A concrete two-sided book used by witness states. -/
def witBook2 : OrderBook :=
  ⟨"FALCON", [⟨100, 10, [witOrder1]⟩], [⟨150, 20, [witAsk]⟩], 2⟩

/-- A concrete engine state over the two-sided book. -/
def witState2 : EngineState := ⟨"FALCON", witBook2, [], 0, ⟨2, 0, 0⟩⟩

/-- A concrete crossing buy order used by witness instantiations. -/
def witBuyCross : Order :=
  ⟨6, "FALCON", OrderSide.BUY, OrderType.LIMIT, 150, 5, 0, OrderStatus.NEW, 0⟩

/-- A small resting ask (50 at 100) used by the status-transition analysis. -/
def witAskSmall : Order :=
  ⟨7, "FALCON", OrderSide.SELL, OrderType.LIMIT, 100, 50, 0, OrderStatus.NEW, 1⟩

/-- A book whose whole ask side is the single small ask. -/
def witBook3 : OrderBook := ⟨"FALCON", [], [⟨100, 50, [witAskSmall]⟩], 1⟩

/-- The engine state over `witBook3`. -/
def witState3 : EngineState := ⟨"FALCON", witBook3, [], 0, ⟨1, 0, 0⟩⟩

/-- A market buy for more quantity than the whole opposing side holds. -/
def witMarketBig : Order :=
  ⟨8, "FALCON", OrderSide.BUY, OrderType.MARKET, 0, 100, 0, OrderStatus.NEW, 0⟩

/-- The order-status transitions the engine's code actually performs: the
edges NEW → PARTIALLY_FILLED/FILLED (`execute_trade`), NEW →
CANCELLED (`cancel_order`), NEW → REJECTED (`match_market_order`),
PARTIALLY_FILLED → FILLED (`execute_trade`), PARTIALLY_FILLED → CANCELLED
(`cancel_order`), and PARTIALLY_FILLED → REJECTED, the edge
`match_market_order` takes when liquidity runs out after a partial fill. -/
inductive StatusStep : OrderStatus → OrderStatus → Prop
  | np : StatusStep OrderStatus.NEW OrderStatus.PARTIALLY_FILLED
  | nf : StatusStep OrderStatus.NEW OrderStatus.FILLED
  | nc : StatusStep OrderStatus.NEW OrderStatus.CANCELLED
  | nr : StatusStep OrderStatus.NEW OrderStatus.REJECTED
  | pf : StatusStep OrderStatus.PARTIALLY_FILLED OrderStatus.FILLED
  | pc : StatusStep OrderStatus.PARTIALLY_FILLED OrderStatus.CANCELLED
  | pr : StatusStep OrderStatus.PARTIALLY_FILLED OrderStatus.REJECTED

/-- In the trade list `tr`, every trade whose passive party is `b` is
preceded by a trade whose passive party is `a` ("`a` matched before `b`"). -/
def matchedBefore (s : OrderSide) (a b : Nat) (tr : List Trade) : Prop :=
  ∀ pre t post, tr = pre ++ t :: post → passiveId s t = b →
    ∃ t2 ∈ pre, passiveId s t2 = a

/-- The earlier of two same-price resting asks used by the priority witness. -/
def witAskA : Order :=
  ⟨10, "FALCON", OrderSide.SELL, OrderType.LIMIT, 100, 5, 0, OrderStatus.NEW, 1⟩

/-- The later of two same-price resting asks used by the priority witness. -/
def witAskB : Order :=
  ⟨11, "FALCON", OrderSide.SELL, OrderType.LIMIT, 100, 7, 0, OrderStatus.NEW, 2⟩

/-- A book whose single ask level queues `witAskA` before `witAskB`. -/
def witBook4 : OrderBook := ⟨"FALCON", [], [⟨100, 12, [witAskA, witAskB]⟩], 2⟩

/-- The engine state over `witBook4`. -/
def witState4 : EngineState := ⟨"FALCON", witBook4, [], 0, ⟨2, 0, 0⟩⟩

/-- An aggressor crossing the level that holds `witAskA` and `witAskB`. -/
def witBuyAgg : Order :=
  ⟨12, "FALCON", OrderSide.BUY, OrderType.LIMIT, 100, 6, 0, OrderStatus.NEW, 0⟩

instance decidableLevelOrderWF (side : OrderSide) (p : Int) (o : Order) :
    Decidable (levelOrderWF side p o) := by
  unfold levelOrderWF
  infer_instance

instance decidableLevelWF (side : OrderSide) (l : PriceLevel) :
    Decidable (levelWF side l) := by
  unfold levelWF
  infer_instance

instance decidableBookWF (b : OrderBook) : Decidable (bookWF b) := by
  unfold bookWF sideWF
  infer_instance

/-! ## Basic lemmas about orders -/

theorem is_active_iff (o : Order) :
    o.is_active = true ↔ (o.status = OrderStatus.NEW ∨ o.status = OrderStatus.PARTIALLY_FILLED) := by
  simp [Order.is_active]

theorem is_filled_iff (o : Order) :
    o.is_filled = true ↔ o.quantity ≤ o.filled_quantity := by
  simp [Order.is_filled]

theorem is_filled_false_iff (o : Order) :
    o.is_filled = false ↔ 0 < o.remaining_quantity := by
  simp only [Order.is_filled, Order.remaining_quantity, decide_eq_false_iff_not, not_le]
  omega

theorem fillUpdate_id (o : Order) (q : Int) : (fillUpdate o q).id = o.id := by
  unfold fillUpdate
  dsimp only
  split <;> rfl

theorem fillUpdate_price (o : Order) (q : Int) : (fillUpdate o q).price = o.price := by
  unfold fillUpdate
  dsimp only
  split <;> rfl

theorem fillUpdate_side (o : Order) (q : Int) : (fillUpdate o q).side = o.side := by
  unfold fillUpdate
  dsimp only
  split <;> rfl

theorem fillUpdate_type (o : Order) (q : Int) : (fillUpdate o q).type = o.type := by
  unfold fillUpdate
  dsimp only
  split <;> rfl

theorem fillUpdate_symbol (o : Order) (q : Int) : (fillUpdate o q).symbol = o.symbol := by
  unfold fillUpdate
  dsimp only
  split <;> rfl

theorem fillUpdate_quantity (o : Order) (q : Int) :
    (fillUpdate o q).quantity = o.quantity := by
  unfold fillUpdate
  dsimp only
  split <;> rfl

theorem fillUpdate_filled (o : Order) (q : Int) :
    (fillUpdate o q).filled_quantity = o.filled_quantity + q := by
  unfold fillUpdate
  dsimp only
  split <;> rfl

theorem fillUpdate_remaining (o : Order) (q : Int) :
    (fillUpdate o q).remaining_quantity = o.remaining_quantity - q := by
  unfold Order.remaining_quantity
  rw [fillUpdate_quantity, fillUpdate_filled]
  omega

theorem fillUpdate_is_filled (o : Order) (q : Int) :
    (fillUpdate o q).is_filled = true ↔ o.remaining_quantity ≤ q := by
  rw [is_filled_iff, fillUpdate_quantity, fillUpdate_filled, Order.remaining_quantity]
  omega

theorem fillUpdate_status (o : Order) (q : Int) :
    ((fillUpdate o q).is_filled = true ∧ (fillUpdate o q).status = OrderStatus.FILLED) ∨
    ((fillUpdate o q).is_filled = false ∧
      (fillUpdate o q).status = OrderStatus.PARTIALLY_FILLED) := by
  unfold fillUpdate
  dsimp only
  by_cases h : ({ o with filled_quantity := o.filled_quantity + q } : Order).is_filled = true
  · rw [if_pos h]
    left
    refine ⟨?_, rfl⟩
    rw [is_filled_iff] at h ⊢
    exact h
  · rw [if_neg h]
    right
    refine ⟨?_, rfl⟩
    simp only [Order.is_filled, decide_eq_true_eq] at h
    simp only [Order.is_filled, decide_eq_false_iff_not]
    exact h

theorem fillUpdate_active_iff (o : Order) (q : Int) :
    (fillUpdate o q).is_active = true ↔ (fillUpdate o q).is_filled = false := by
  rcases fillUpdate_status o q with ⟨h1, h2⟩ | ⟨h1, h2⟩ <;>
    rw [is_active_iff, h1, h2] <;> simp

/-! ## Characterizing a single `try_match` step -/

theorem try_match_no_opposing (st : EngineState) (o : Order)
    (h : opposing st.book o.side = []) :
    try_match st o = (st, o, false) := by
  unfold try_match
  cases hside : o.side
  · rw [hside] at h
    have h2 : st.book.asks = [] := h
    rw [h2]
  · rw [hside] at h
    have h2 : st.book.bids = [] := h
    rw [h2]

theorem try_match_empty_level_buy (st : EngineState) (o : Order)
    (lvl : PriceLevel) (rest : List PriceLevel)
    (hside : o.side = OrderSide.BUY)
    (hasks : st.book.asks = lvl :: rest) (hlvl : lvl.orders = []) :
    try_match st o = (st, o, false) := by
  have hemp : lvl.empty = true := by
    unfold PriceLevel.empty
    rw [hlvl]
    rfl
  unfold try_match
  rw [hside, hasks]
  dsimp only
  rw [if_pos hemp]

theorem try_match_empty_level_sell (st : EngineState) (o : Order)
    (lvl : PriceLevel) (rest : List PriceLevel)
    (hside : o.side = OrderSide.SELL)
    (hbids : st.book.bids = lvl :: rest) (hlvl : lvl.orders = []) :
    try_match st o = (st, o, false) := by
  have hemp : lvl.empty = true := by
    unfold PriceLevel.empty
    rw [hlvl]
    rfl
  unfold try_match
  rw [hside, hbids]
  dsimp only
  rw [if_pos hemp]

theorem try_match_price_out_buy (st : EngineState) (o : Order)
    (lvl : PriceLevel) (rest : List PriceLevel)
    (hside : o.side = OrderSide.BUY)
    (hasks : st.book.asks = lvl :: rest)
    (ht : o.type = OrderType.LIMIT) (hp : o.price < lvl.price) :
    try_match st o = (st, o, false) := by
  unfold try_match
  rw [hside, hasks]
  dsimp only
  by_cases hemp : lvl.empty = true
  · rw [if_pos hemp]
  · rw [if_neg hemp, if_pos (by simp [ht, hp])]

theorem try_match_price_out_sell (st : EngineState) (o : Order)
    (lvl : PriceLevel) (rest : List PriceLevel)
    (hside : o.side = OrderSide.SELL)
    (hbids : st.book.bids = lvl :: rest)
    (ht : o.type = OrderType.LIMIT) (hp : lvl.price < o.price) :
    try_match st o = (st, o, false) := by
  unfold try_match
  rw [hside, hbids]
  dsimp only
  by_cases hemp : lvl.empty = true
  · rw [if_pos hemp]
  · rw [if_neg hemp, if_pos (by simp [ht, hp])]

theorem try_match_inactive_buy (st : EngineState) (o : Order)
    (lvl : PriceLevel) (rest : List PriceLevel) (r : Order) (ros : List Order)
    (hside : o.side = OrderSide.BUY)
    (hasks : st.book.asks = lvl :: rest) (hlvl : lvl.orders = r :: ros)
    (hact : r.is_active = false) :
    try_match st o = (st, o, false) := by
  have hemp : lvl.empty = false := by
    unfold PriceLevel.empty
    rw [hlvl]
    rfl
  unfold try_match
  rw [hside, hasks]
  dsimp only
  rw [if_neg (by simp [hemp]), hlvl]
  by_cases hpr : (decide (o.type = OrderType.LIMIT) && decide (o.price < lvl.price)) = true
  · rw [if_pos hpr]
  · rw [if_neg hpr]
    dsimp only
    rw [if_pos (by simp [hact])]

theorem try_match_inactive_sell (st : EngineState) (o : Order)
    (lvl : PriceLevel) (rest : List PriceLevel) (r : Order) (ros : List Order)
    (hside : o.side = OrderSide.SELL)
    (hbids : st.book.bids = lvl :: rest) (hlvl : lvl.orders = r :: ros)
    (hact : r.is_active = false) :
    try_match st o = (st, o, false) := by
  have hemp : lvl.empty = false := by
    unfold PriceLevel.empty
    rw [hlvl]
    rfl
  unfold try_match
  rw [hside, hbids]
  dsimp only
  rw [if_neg (by simp [hemp]), hlvl]
  by_cases hpr : (decide (o.type = OrderType.LIMIT) && decide (lvl.price < o.price)) = true
  · rw [if_pos hpr]
  · rw [if_neg hpr]
    dsimp only
    rw [if_pos (by simp [hact])]

theorem try_match_matched_buy (st : EngineState) (o : Order)
    (lvl : PriceLevel) (rest : List PriceLevel) (r : Order) (ros : List Order)
    (hside : o.side = OrderSide.BUY)
    (hasks : st.book.asks = lvl :: rest) (hlvl : lvl.orders = r :: ros)
    (hact : r.is_active = true)
    (hprice : o.type = OrderType.MARKET ∨ lvl.price ≤ o.price) :
    try_match st o =
      ({ st with
          book := steppedBook st.book OrderSide.BUY lvl rest ros
            (fillUpdate r (min o.remaining_quantity r.remaining_quantity))
            (min o.remaining_quantity r.remaining_quantity),
          trades := st.trades ++ [sideTrade OrderSide.BUY (st.trade_id_counter + 1) o r
            (min o.remaining_quantity r.remaining_quantity)],
          trade_id_counter := st.trade_id_counter + 1,
          stats := { st.stats with trades_executed := st.stats.trades_executed + 1 } },
       fillUpdate o (min o.remaining_quantity r.remaining_quantity), true) := by
  have hemp : lvl.empty = false := by
    unfold PriceLevel.empty
    rw [hlvl]
    rfl
  have hpr : (decide (o.type = OrderType.LIMIT) && decide (o.price < lvl.price)) = false := by
    rcases hprice with h | h
    · simp [h]
    · simp [not_lt.2 h]
  unfold try_match
  rw [hside, hasks]
  dsimp only
  rw [if_neg (by simp [hemp]), if_neg (by simp [hpr]), hlvl]
  dsimp only
  rw [if_neg (by simp [hact])]
  unfold EngineState.execute_trade steppedBook sideTrade
  dsimp only
  rw [fillUpdate_id, fillUpdate_id]

theorem try_match_matched_sell (st : EngineState) (o : Order)
    (lvl : PriceLevel) (rest : List PriceLevel) (r : Order) (ros : List Order)
    (hside : o.side = OrderSide.SELL)
    (hbids : st.book.bids = lvl :: rest) (hlvl : lvl.orders = r :: ros)
    (hact : r.is_active = true)
    (hprice : o.type = OrderType.MARKET ∨ o.price ≤ lvl.price) :
    try_match st o =
      ({ st with
          book := steppedBook st.book OrderSide.SELL lvl rest ros
            (fillUpdate r (min o.remaining_quantity r.remaining_quantity))
            (min o.remaining_quantity r.remaining_quantity),
          trades := st.trades ++ [sideTrade OrderSide.SELL (st.trade_id_counter + 1) o r
            (min o.remaining_quantity r.remaining_quantity)],
          trade_id_counter := st.trade_id_counter + 1,
          stats := { st.stats with trades_executed := st.stats.trades_executed + 1 } },
       fillUpdate o (min o.remaining_quantity r.remaining_quantity), true) := by
  have hemp : lvl.empty = false := by
    unfold PriceLevel.empty
    rw [hlvl]
    rfl
  have hpr : (decide (o.type = OrderType.LIMIT) && decide (lvl.price < o.price)) = false := by
    rcases hprice with h | h
    · simp [h]
    · simp [not_lt.2 h]
  unfold try_match
  rw [hside, hbids]
  dsimp only
  rw [if_neg (by simp [hemp]), if_neg (by simp [hpr]), hlvl]
  dsimp only
  rw [if_neg (by simp [hact])]
  unfold EngineState.execute_trade steppedBook sideTrade
  dsimp only
  rw [fillUpdate_id, fillUpdate_id]

/-! ## The event queue (C9) -/

theorem mask_mod {k N : Nat} (hN : N = 2 ^ k) (x : Nat) :
    x &&& (N - 1) = x % N := by
  subst hN
  exact Nat.and_pow_two_sub_one_eq_mod x k

theorem wrap_mod (N a : Nat) (h : a < 2 * N) :
    a % N = if a < N then a else a - N := by
  rcases Nat.lt_or_ge a N with hlt | hge
  · rw [if_pos hlt]
    exact Nat.mod_eq_of_lt hlt
  · rw [if_neg (by omega)]
    have h2 : a = (a - N) + N := by omega
    conv_lhs => rw [h2]
    rw [Nat.add_mod_right]
    exact Nat.mod_eq_of_lt (by omega)

theorem size_mk {N : Nat} (h t : Nat) (f : Nat → OrderEvent) :
    (LockFreeQueue.mk h t f : LockFreeQueue N).size = (t + N - h) % N := rfl

theorem toList_mk {N : Nat} (h t : Nat) (f : Nat → OrderEvent) :
    (LockFreeQueue.mk h t f : LockFreeQueue N).toList
      = (List.range ((t + N - h) % N)).map (fun i => f ((h + i) % N)) := rfl

theorem queue_size_eq {N : Nat} (q : LockFreeQueue N)
    (hh : q.head < N) (ht : q.tail < N) :
    q.size = if q.head ≤ q.tail then q.tail - q.head else q.tail + N - q.head := by
  unfold LockFreeQueue.size
  rcases le_or_lt q.head q.tail with hle | hlt
  · rw [if_pos hle]
    have h2 : q.tail + N - q.head = (q.tail - q.head) + N := by omega
    rw [h2, Nat.add_mod_right]
    exact Nat.mod_eq_of_lt (by omega)
  · rw [if_neg (by omega)]
    exact Nat.mod_eq_of_lt (by omega)

theorem queue_push_success {N : Nat} (q : LockFreeQueue N) (e : OrderEvent)
    (hfull : (q.tail + 1) &&& (N - 1) ≠ q.head) :
    q.push e = (LockFreeQueue.mk q.head ((q.tail + 1) &&& (N - 1))
      (fun i => if i = q.tail then e else q.buffer i), true) := by
  unfold LockFreeQueue.push
  rw [if_neg hfull]

theorem queue_push_toList {k N : Nat} (hN : N = 2 ^ k) (q : LockFreeQueue N)
    (e : OrderEvent) (hh : q.head < N) (ht : q.tail < N)
    (hfull : (q.tail + 1) &&& (N - 1) ≠ q.head) :
    (q.push e).1.toList = q.toList ++ [e] := by
  have hNpos : 0 < N := by subst hN; exact Nat.pos_pow_of_pos k (by omega)
  have hmask := mask_mod hN (q.tail + 1)
  have hfull2 : (q.tail + 1) % N ≠ q.head := by rw [← hmask]; exact hfull
  have hs := queue_size_eq q hh ht
  rw [queue_push_success q e hfull]
  rw [toList_mk]
  -- the new size is the old size plus one
  have hsz : (((q.tail + 1) &&& (N - 1)) + N - q.head) % N = q.size + 1 := by
    rw [hmask]
    rcases Nat.lt_or_ge (q.tail + 1) N with h1 | h1
    · rw [Nat.mod_eq_of_lt h1] at hfull2 ⊢
      rcases le_or_lt q.head q.tail with h2 | h2
      · have h3 : q.tail + 1 + N - q.head = (q.tail - q.head + 1) + N := by omega
        rw [h3, Nat.add_mod_right, Nat.mod_eq_of_lt (by omega), hs, if_pos h2]
      · have h4 : q.tail + 1 < q.head := by omega
        rw [Nat.mod_eq_of_lt (by omega), hs, if_neg (by omega)]
        omega
    · have h5 : q.tail + 1 = N := by omega
      have h6 : (q.tail + 1) % N = 0 := by rw [h5, Nat.mod_self]
      rw [h6] at hfull2 ⊢
      have h7 : 0 < q.head := by omega
      rw [Nat.mod_eq_of_lt (by omega), hs, if_pos (by omega)]
      omega
  rw [hsz]
  -- expand toList of the original queue
  have htl : q.toList
      = (List.range q.size).map (fun i => q.buffer ((q.head + i) % N)) := rfl
  rw [htl, List.range_succ, List.map_append]
  have hsltN : q.size < N := by rw [hs]; split_ifs <;> omega
  have hidx : ∀ i, i < q.size → (q.head + i) % N ≠ q.tail := by
    intro i hi
    rw [wrap_mod N (q.head + i) (by omega)]
    rw [hs] at hi
    split_ifs at hi ⊢ <;> omega
  have hlast : (q.head + q.size) % N = q.tail := by
    rw [wrap_mod N (q.head + q.size) (by omega)]
    rw [hs]
    rw [hs] at hsltN
    split_ifs at hsltN ⊢ <;> omega
  have h1 : List.map (fun i => if (q.head + i) % N = q.tail then e
        else q.buffer ((q.head + i) % N)) (List.range q.size)
      = List.map (fun i => q.buffer ((q.head + i) % N)) (List.range q.size) := by
    apply List.map_congr_left
    intro i hi
    rw [List.mem_range] at hi
    simp only [hidx i hi, if_false]
  have h2 : List.map (fun i => if (q.head + i) % N = q.tail then e
        else q.buffer ((q.head + i) % N)) [q.size] = [e] := by
    simp only [List.map_cons, List.map_nil, hlast]
    simp
  rw [h1, h2]

theorem queue_pop_success {N : Nat} (q : LockFreeQueue N)
    (hne : q.head ≠ q.tail) :
    q.pop = (LockFreeQueue.mk ((q.head + 1) &&& (N - 1)) q.tail q.buffer,
      some (q.buffer q.head)) := by
  unfold LockFreeQueue.pop
  rw [if_neg hne]

theorem queue_pop_toList {k N : Nat} (hN : N = 2 ^ k) (q : LockFreeQueue N)
    (hh : q.head < N) (ht : q.tail < N) (x : OrderEvent) (xs : List OrderEvent)
    (hx : q.toList = x :: xs) :
    (q.pop).2 = some x ∧ (q.pop).1.toList = xs ∧
    (q.pop).1.tail = q.tail ∧ (q.pop).1.head = (q.head + 1) &&& (N - 1) := by
  have hNpos : 0 < N := by subst hN; exact Nat.pos_pow_of_pos k (by omega)
  have hmask := mask_mod hN (q.head + 1)
  have hs := queue_size_eq q hh ht
  have hspos : 0 < q.size := by
    by_contra hc
    have h0 : q.size = 0 := by omega
    have h1 : q.toList = [] := by
      unfold LockFreeQueue.toList
      rw [h0]
      rfl
    rw [hx] at h1
    exact List.cons_ne_nil _ _ h1
  have hne : q.head ≠ q.tail := by
    intro hcontra
    rw [hs, if_pos (Nat.le_of_eq hcontra)] at hspos
    omega
  rw [queue_pop_success q hne]
  -- the new size is the old size minus one
  have hsz : (q.tail + N - ((q.head + 1) &&& (N - 1))) % N = q.size - 1 := by
    rw [hmask]
    rcases Nat.lt_or_ge (q.head + 1) N with h1 | h1
    · rw [Nat.mod_eq_of_lt h1]
      rcases le_or_lt q.head q.tail with h2 | h2
      · have h3 : q.head < q.tail := by omega
        have h4 : q.tail + N - (q.head + 1) = (q.tail - q.head - 1) + N := by omega
        rw [h4, Nat.add_mod_right, Nat.mod_eq_of_lt (by omega), hs, if_pos h2]
      · rw [Nat.mod_eq_of_lt (by omega), hs, if_neg (by omega)]
        omega
    · have h5 : q.head + 1 = N := by omega
      have h6 : (q.head + 1) % N = 0 := by rw [h5, Nat.mod_self]
      rw [h6]
      have h7 : q.tail < q.head := by omega
      rw [Nat.sub_zero, Nat.add_mod_right, Nat.mod_eq_of_lt ht, hs, if_neg (by omega)]
      omega
  -- identify x and xs from the given decomposition of toList
  obtain ⟨s2, hs2eq⟩ : ∃ s2, q.size = s2 + 1 := ⟨q.size - 1, by omega⟩
  have hxeq : x = q.buffer q.head ∧
      xs = List.map (fun i => q.buffer ((q.head + (i + 1)) % N)) (List.range s2) := by
    have h1 : q.toList = q.buffer ((q.head + 0) % N) ::
        List.map ((fun i => q.buffer ((q.head + i) % N)) ∘ Nat.succ) (List.range s2) := by
      unfold LockFreeQueue.toList
      rw [hs2eq, List.range_succ_eq_map, List.map_cons, List.map_map]
    rw [hx, List.cons.injEq] at h1
    refine ⟨?_, ?_⟩
    · rw [h1.1, Nat.add_zero, Nat.mod_eq_of_lt hh]
    · rw [h1.2]
      apply List.map_congr_left
      intro i _
      rfl
  refine ⟨by rw [hxeq.1], ?_, rfl, rfl⟩
  rw [toList_mk, hsz, hs2eq, Nat.add_sub_cancel, hxeq.2]
  apply List.map_congr_left
  intro i hi
  rw [List.mem_range] at hi
  rw [hmask, Nat.mod_add_mod]
  congr 2
  omega

theorem uncrossed_of_wf (b : OrderBook) (hwf : bookWF b) :
    ∀ pb pa, b.best_bid = some pb → b.best_ask = some pa → pb < pa := by
  intro pb pa hb ha
  obtain ⟨lb, hlb, hpb⟩ : ∃ lb ∈ b.bids, lb.price = pb := by
    unfold OrderBook.best_bid at hb
    rcases hbs : b.bids with _ | ⟨l, rest⟩
    · rw [hbs] at hb
      exact absurd hb (by simp)
    · rw [hbs] at hb
      refine ⟨l, List.mem_cons_self l rest, ?_⟩
      simpa using hb
  obtain ⟨la, hla, hpa⟩ : ∃ la ∈ b.asks, la.price = pa := by
    unfold OrderBook.best_ask at ha
    rcases has : b.asks with _ | ⟨l, rest⟩
    · rw [has] at ha
      exact absurd ha (by simp)
    · rw [has] at ha
      refine ⟨l, List.mem_cons_self l rest, ?_⟩
      simpa using ha
  have h := hwf.2.2 lb hlb la hla
  omega

/-- C9: the event queue is a FIFO ring buffer: `push` fails exactly on the
full test `(tail+1) & (N-1) == head` and otherwise appends the event and
advances `tail`; `pop` fails exactly on the empty test `head == tail` and
otherwise yields the oldest stored event and advances `head`; under the
`toList` abstraction events therefore dequeue in the order of their
successful pushes. -/
theorem queue_fifo_ring_buffer {k N : Nat} (hN : N = 2 ^ k)
    (q : LockFreeQueue N) (e : OrderEvent)
    (hh : q.head < N) (ht : q.tail < N) :
    ((q.push e).2 = false ↔ (q.tail + 1) &&& (N - 1) = q.head) ∧
    ((q.push e).2 = false → (q.push e).1 = q) ∧
    ((q.tail + 1) &&& (N - 1) ≠ q.head →
      (q.push e).1.toList = q.toList ++ [e] ∧
      (q.push e).1.tail = (q.tail + 1) &&& (N - 1) ∧
      (q.push e).1.head = q.head) ∧
    ((q.pop).2 = none ↔ q.head = q.tail) ∧
    (q.head = q.tail → (q.pop).1 = q) ∧
    (∀ x xs, q.toList = x :: xs →
      (q.pop).2 = some x ∧ (q.pop).1.toList = xs ∧
      (q.pop).1.head = (q.head + 1) &&& (N - 1) ∧ (q.pop).1.tail = q.tail) := by
  refine ⟨?_, ?_, ?_, ?_, ?_, ?_⟩
  · unfold LockFreeQueue.push
    by_cases hc : (q.tail + 1) &&& (N - 1) = q.head
    · rw [if_pos hc]
      simp [hc]
    · rw [if_neg hc]
      simp [hc]
  · intro hp
    unfold LockFreeQueue.push at hp ⊢
    by_cases hc : (q.tail + 1) &&& (N - 1) = q.head
    · rw [if_pos hc]
    · rw [if_neg hc] at hp
      exact absurd hp (by simp)
  · intro hfull
    refine ⟨queue_push_toList hN q e hh ht hfull, ?_, ?_⟩
    · rw [queue_push_success q e hfull]
    · rw [queue_push_success q e hfull]
  · unfold LockFreeQueue.pop
    by_cases hc : q.head = q.tail
    · rw [if_pos hc]
      simp [hc]
    · rw [if_neg hc]
      simp [hc]
  · intro hc
    unfold LockFreeQueue.pop
    rw [if_pos hc]
  · intro x xs hx
    have h := queue_pop_toList hN q hh ht x xs hx
    exact ⟨h.1, h.2.1, h.2.2.2, h.2.2.1⟩

/-- Witness for C9 at a concrete queue: all hypotheses hold at `witQueue`
and the instantiated conclusion follows by applying the theorem. -/
theorem queue_fifo_ring_buffer_witness :
    ((4:Nat) = 2 ^ 2 ∧ witQueue.head < 4 ∧ witQueue.tail < 4 ∧
      (witQueue.tail + 1) &&& (4 - 1) ≠ witQueue.head) ∧
    (witQueue.push witEvent).1.toList = witQueue.toList ++ [witEvent] :=
  ⟨⟨by decide, by decide, by decide, by decide⟩,
   ((@queue_fifo_ring_buffer 2 4 (by decide) witQueue witEvent (by decide)
      (by decide)).2.2.1 (by decide)).1⟩

/-! ## Cancel lookups -/

theorem mem_sideIds {ls : List PriceLevel} {i : Nat} :
    i ∈ sideIds ls ↔ ∃ l ∈ ls, ∃ o ∈ l.orders, o.id = i := by
  simp [sideIds, List.mem_flatten]

theorem cancelInSide_not_found {ls : List PriceLevel} {i : Nat}
    (h : ∀ l ∈ ls, ∀ o ∈ l.orders, o.id ≠ i) :
    cancelInSide ls i = (ls, none) := by
  induction ls with
  | nil => rfl
  | cons l rest ih =>
      have hfind : l.find_order i = none := by
        unfold PriceLevel.find_order
        rw [List.find?_eq_none]
        intro o ho
        simpa using h l (by simp) o ho
      unfold cancelInSide
      rw [hfind, ih (fun l2 hl2 o ho => h l2 (List.mem_cons_of_mem _ hl2) o ho)]

theorem cancel_order_not_found {b : OrderBook} {i : Nat}
    (h : i ∉ bookIds b) :
    b.cancel_order i = (b, none) := by
  have hbids : ∀ l ∈ b.bids, ∀ o ∈ l.orders, o.id ≠ i := by
    intro l hl o ho hc
    exact h (by rw [bookIds, List.mem_append]; exact Or.inl (mem_sideIds.2 ⟨l, hl, o, ho, hc⟩))
  have hasks : ∀ l ∈ b.asks, ∀ o ∈ l.orders, o.id ≠ i := by
    intro l hl o ho hc
    exact h (by rw [bookIds, List.mem_append]; exact Or.inr (mem_sideIds.2 ⟨l, hl, o, ho, hc⟩))
  unfold OrderBook.cancel_order
  rw [cancelInSide_not_found hbids, cancelInSide_not_found hasks]

theorem process_cancel_order_not_found {st : EngineState} {i : Nat}
    (h : i ∉ bookIds st.book) :
    process_cancel_order st i = st := by
  unfold process_cancel_order
  rw [cancel_order_not_found h]

/-! ## Frame facts for the matching step and loops -/

/-- Complete case analysis of one `try_match` step: either nothing happens
and no match is reported, or the front order of the best opposing level is
active and not out of price range, and the step performs exactly the
book/trade update described by `steppedBook` and `sideTrade`. -/
theorem try_match_cases (st : EngineState) (o : Order) :
    try_match st o = (st, o, false) ∨
    (∃ lvl rest r ros,
      opposing st.book o.side = lvl :: rest ∧ lvl.orders = r :: ros ∧
      r.is_active = true ∧
      (o.type = OrderType.MARKET ∨
        ((o.side = OrderSide.BUY → lvl.price ≤ o.price) ∧
         (o.side = OrderSide.SELL → o.price ≤ lvl.price))) ∧
      try_match st o =
        ({ st with
            book := steppedBook st.book o.side lvl rest ros
              (fillUpdate r (min o.remaining_quantity r.remaining_quantity))
              (min o.remaining_quantity r.remaining_quantity),
            trades := st.trades ++ [sideTrade o.side (st.trade_id_counter + 1) o r
              (min o.remaining_quantity r.remaining_quantity)],
            trade_id_counter := st.trade_id_counter + 1,
            stats := { st.stats with
              trades_executed := st.stats.trades_executed + 1 } },
         fillUpdate o (min o.remaining_quantity r.remaining_quantity), true)) := by
  cases hside : o.side
  case BUY =>
    rcases hasks : st.book.asks with _ | ⟨lvl, rest⟩
    · left
      exact try_match_no_opposing st o (by rw [hside]; exact hasks)
    · rcases hlvl : lvl.orders with _ | ⟨r, ros⟩
      · left
        exact try_match_empty_level_buy st o lvl rest hside hasks hlvl
      · by_cases hact : r.is_active = true
        · by_cases hcross : o.type = OrderType.MARKET ∨ lvl.price ≤ o.price
          · right
            refine ⟨lvl, rest, r, ros, hasks, hlvl, hact, ?_, ?_⟩
            · rcases hcross with h | h
              · exact Or.inl h
              · exact Or.inr ⟨fun _ => h, fun hs => nomatch hs⟩
            · exact try_match_matched_buy st o lvl rest r ros hside hasks hlvl hact hcross
          · left
            have ht : o.type = OrderType.LIMIT := by
              cases htype : o.type
              · rfl
              · exact absurd (Or.inl htype) hcross
            have hp : o.price < lvl.price := by
              by_contra hc
              exact hcross (Or.inr (not_lt.1 hc))
            exact try_match_price_out_buy st o lvl rest hside hasks ht hp
        · left
          exact try_match_inactive_buy st o lvl rest r ros hside hasks hlvl
            (by simpa using hact)
  case SELL =>
    rcases hbids : st.book.bids with _ | ⟨lvl, rest⟩
    · left
      exact try_match_no_opposing st o (by rw [hside]; exact hbids)
    · rcases hlvl : lvl.orders with _ | ⟨r, ros⟩
      · left
        exact try_match_empty_level_sell st o lvl rest hside hbids hlvl
      · by_cases hact : r.is_active = true
        · by_cases hcross : o.type = OrderType.MARKET ∨ o.price ≤ lvl.price
          · right
            refine ⟨lvl, rest, r, ros, hbids, hlvl, hact, ?_, ?_⟩
            · rcases hcross with h | h
              · exact Or.inl h
              · exact Or.inr ⟨(fun hs => nomatch hs), fun _ => h⟩
            · exact try_match_matched_sell st o lvl rest r ros hside hbids hlvl hact hcross
          · left
            have ht : o.type = OrderType.LIMIT := by
              cases htype : o.type
              · rfl
              · exact absurd (Or.inl htype) hcross
            have hp : lvl.price < o.price := by
              by_contra hc
              exact hcross (Or.inr (not_lt.1 hc))
            exact try_match_price_out_sell st o lvl rest hside hbids ht hp
        · left
          exact try_match_inactive_sell st o lvl rest r ros hside hbids hlvl
            (by simpa using hact)

/-- `try_match` either reports no match leaving everything unchanged, or
logs exactly one trade, bumps the trade id counter and `trades_executed`,
and replaces the book by one preserving symbol and sequence counter. -/
theorem try_match_shape (st : EngineState) (o : Order) :
    ((try_match st o).1 = st ∧ (try_match st o).2.2 = false ∧ (try_match st o).2.1 = o) ∨
    (∃ B T, (try_match st o).1
      = { st with book := B, trades := st.trades ++ [T],
                  trade_id_counter := st.trade_id_counter + 1,
                  stats := { st.stats with
                    trades_executed := st.stats.trades_executed + 1 } } ∧
      B.symbol = st.book.symbol ∧ B.sequence_counter = st.book.sequence_counter) := by
  unfold try_match EngineState.execute_trade OrderBook.remove_order
  dsimp only
  repeat' split
  all_goals first
    | exact Or.inl ⟨rfl, rfl, rfl⟩
    | exact Or.inr ⟨_, _, rfl, rfl, rfl⟩

theorem try_match_frame (st : EngineState) (o : Order) :
    (try_match st o).1.stats.orders_processed = st.stats.orders_processed ∧
    (try_match st o).1.stats.orders_cancelled = st.stats.orders_cancelled ∧
    (try_match st o).1.symbol = st.symbol ∧
    (try_match st o).1.book.symbol = st.book.symbol ∧
    (try_match st o).1.book.sequence_counter = st.book.sequence_counter := by
  rcases try_match_shape st o with ⟨h1, _, _⟩ | ⟨B, T, h1, hsym, hseq⟩
  · rw [h1]
    exact ⟨rfl, rfl, rfl, rfl, rfl⟩
  · rw [h1]
    exact ⟨rfl, rfl, rfl, hsym, hseq⟩

theorem matchLoop_frame : ∀ (fuel : Nat) (st : EngineState) (o : Order),
    (matchLoop fuel st o).1.stats.orders_processed = st.stats.orders_processed ∧
    (matchLoop fuel st o).1.stats.orders_cancelled = st.stats.orders_cancelled ∧
    (matchLoop fuel st o).1.symbol = st.symbol ∧
    (matchLoop fuel st o).1.book.symbol = st.book.symbol ∧
    (matchLoop fuel st o).1.book.sequence_counter = st.book.sequence_counter := by
  intro fuel
  induction fuel with
  | zero => exact fun st o => ⟨rfl, rfl, rfl, rfl, rfl⟩
  | succ n ih =>
      intro st o
      unfold matchLoop
      split
      · split
        · have h1 := ih (try_match st o).1 (try_match st o).2.1
          have h2 := try_match_frame st o
          exact ⟨h1.1.trans h2.1, h1.2.1.trans h2.2.1, h1.2.2.1.trans h2.2.2.1,
            h1.2.2.2.1.trans h2.2.2.2.1, h1.2.2.2.2.trans h2.2.2.2.2⟩
        · exact try_match_frame st o
      · exact ⟨rfl, rfl, rfl, rfl, rfl⟩

theorem marketLoop_frame : ∀ (fuel : Nat) (st : EngineState) (o : Order),
    (marketLoop fuel st o).1.stats.orders_processed = st.stats.orders_processed ∧
    (marketLoop fuel st o).1.stats.orders_cancelled = st.stats.orders_cancelled ∧
    (marketLoop fuel st o).1.symbol = st.symbol ∧
    (marketLoop fuel st o).1.book.symbol = st.book.symbol ∧
    (marketLoop fuel st o).1.book.sequence_counter = st.book.sequence_counter := by
  intro fuel
  induction fuel with
  | zero => exact fun st o => ⟨rfl, rfl, rfl, rfl, rfl⟩
  | succ n ih =>
      intro st o
      unfold marketLoop
      split
      · split
        · have h1 := ih (try_match st o).1 (try_match st o).2.1
          have h2 := try_match_frame st o
          exact ⟨h1.1.trans h2.1, h1.2.1.trans h2.2.1, h1.2.2.1.trans h2.2.2.1,
            h1.2.2.2.1.trans h2.2.2.2.1, h1.2.2.2.2.trans h2.2.2.2.2⟩
        · exact try_match_frame st o
      · exact ⟨rfl, rfl, rfl, rfl, rfl⟩

theorem process_new_order_stats (st : EngineState) (o : Order) :
    (process_new_order st o).1.stats.orders_processed = st.stats.orders_processed + 1 ∧
    (process_new_order st o).1.stats.orders_cancelled = st.stats.orders_cancelled := by
  unfold process_new_order match_market_order match_limit_order
  split
  · split
    · exact ⟨(marketLoop_frame _ _ _).1, (marketLoop_frame _ _ _).2.1⟩
    · exact ⟨(marketLoop_frame _ _ _).1, (marketLoop_frame _ _ _).2.1⟩
  · split
    · exact ⟨(matchLoop_frame _ _ _).1, (matchLoop_frame _ _ _).2.1⟩
    · exact ⟨(matchLoop_frame _ _ _).1, (matchLoop_frame _ _ _).2.1⟩

/-- C10: a REPLACE event whose old id is unknown still fully processes the
replacement order: the failed cancel half is a silent no-op, the replacement
is handled exactly as a fresh new order, `orders_processed` is incremented,
and `orders_cancelled` is untouched. -/
theorem replace_unknown_id_processes_new (st : EngineState) (old_id : Nat)
    (o : Order) (h : old_id ∉ bookIds st.book) :
    process_replace_order st old_id o = process_new_order st o ∧
    (process_replace_order st old_id o).1.stats.orders_processed
      = st.stats.orders_processed + 1 ∧
    (process_replace_order st old_id o).1.stats.orders_cancelled
      = st.stats.orders_cancelled := by
  have h1 : process_replace_order st old_id o = process_new_order st o := by
    unfold process_replace_order
    rw [process_cancel_order_not_found h]
  refine ⟨h1, ?_, ?_⟩
  · rw [h1]
    exact (process_new_order_stats st o).1
  · rw [h1]
    exact (process_new_order_stats st o).2

/-! ## Well-formedness is preserved by a matching step -/

theorem steppedBook_buy_eq (bk : OrderBook) (lvl : PriceLevel)
    (rest : List PriceLevel) (ros : List Order) (r : Order) (m : Int)
    (hp : r.price = lvl.price) (hs : r.side = OrderSide.SELL) :
    steppedBook bk OrderSide.BUY lvl rest ros (fillUpdate r m) m
      = { bk with asks :=
          if (fillUpdate r m).is_filled then
            (if ros.isEmpty then rest
             else ⟨lvl.price, lvl.total_quantity - r.remaining_quantity, ros⟩ :: rest)
          else ⟨lvl.price, lvl.total_quantity + -m, fillUpdate r m :: ros⟩ :: rest } := by
  have hcond : lvl.price = (fillUpdate r m).price := by
    rw [fillUpdate_price, hp]
  have htq : lvl.total_quantity + -m - (fillUpdate r m).remaining_quantity
      = lvl.total_quantity - r.remaining_quantity := by
    rw [fillUpdate_remaining]
    ring
  unfold steppedBook
  dsimp only
  by_cases hf : (fillUpdate r m).is_filled = true
  · rw [if_pos hf, if_pos hf]
    unfold OrderBook.remove_order
    rw [fillUpdate_side, hs]
    dsimp only
    unfold removeFromSide PriceLevel.remove_order removeById
      PriceLevel.update_total_quantity PriceLevel.empty
    dsimp only
    rw [if_pos hcond, if_pos rfl, htq]
  · rw [if_neg hf, if_neg hf]
    unfold PriceLevel.update_total_quantity
    dsimp only

theorem steppedBook_sell_eq (bk : OrderBook) (lvl : PriceLevel)
    (rest : List PriceLevel) (ros : List Order) (r : Order) (m : Int)
    (hp : r.price = lvl.price) (hs : r.side = OrderSide.BUY) :
    steppedBook bk OrderSide.SELL lvl rest ros (fillUpdate r m) m
      = { bk with bids :=
          if (fillUpdate r m).is_filled then
            (if ros.isEmpty then rest
             else ⟨lvl.price, lvl.total_quantity - r.remaining_quantity, ros⟩ :: rest)
          else ⟨lvl.price, lvl.total_quantity + -m, fillUpdate r m :: ros⟩ :: rest } := by
  have hcond : lvl.price = (fillUpdate r m).price := by
    rw [fillUpdate_price, hp]
  have htq : lvl.total_quantity + -m - (fillUpdate r m).remaining_quantity
      = lvl.total_quantity - r.remaining_quantity := by
    rw [fillUpdate_remaining]
    ring
  unfold steppedBook
  dsimp only
  by_cases hf : (fillUpdate r m).is_filled = true
  · rw [if_pos hf, if_pos hf]
    unfold OrderBook.remove_order
    rw [fillUpdate_side, hs]
    dsimp only
    unfold removeFromSide PriceLevel.remove_order removeById
      PriceLevel.update_total_quantity PriceLevel.empty
    dsimp only
    rw [if_pos hcond, if_pos rfl, htq]
  · rw [if_neg hf, if_neg hf]
    unfold PriceLevel.update_total_quantity
    dsimp only

theorem levelWF_front (side : OrderSide) (lvl : PriceLevel) (r : Order)
    (ros : List Order) (hlvl : lvl.orders = r :: ros)
    (hwf : levelWF side lvl) :
    r.price = lvl.price ∧ r.side = side ∧ r.is_active = true ∧
    0 < r.remaining_quantity ∧
    lvl.total_quantity = r.remaining_quantity + (ros.map Order.remaining_quantity).sum := by
  obtain ⟨_, hall, htot⟩ := hwf
  have hr := hall r (by rw [hlvl]; exact List.mem_cons_self r ros)
  obtain ⟨h1, h2, h3, h4⟩ := hr
  refine ⟨h1, h2, h3, h4, ?_⟩
  rw [htot, hlvl, List.map_cons, List.sum_cons]

theorem wf_steppedBook_buy (bk : OrderBook) (lvl : PriceLevel)
    (rest : List PriceLevel) (r : Order) (ros : List Order) (m : Int)
    (hwf : bookWF bk) (hasks : bk.asks = lvl :: rest) (hlvl : lvl.orders = r :: ros) :
    bookWF (steppedBook bk OrderSide.BUY lvl rest ros (fillUpdate r m) m) ∧
    (steppedBook bk OrderSide.BUY lvl rest ros (fillUpdate r m) m).bids = bk.bids ∧
    (∀ la2 ∈ (steppedBook bk OrderSide.BUY lvl rest ros (fillUpdate r m) m).asks,
      la2.price = lvl.price ∨ la2 ∈ rest) := by
  obtain ⟨hbids, hasksWF, hcross⟩ := hwf
  have hlwf : levelWF OrderSide.SELL lvl := by
    exact hasksWF.2 lvl (by rw [hasks]; exact List.mem_cons_self lvl rest)
  obtain ⟨hp, hside2, hact, hrem, htot⟩ := levelWF_front OrderSide.SELL lvl r ros hlvl hlwf
  have hpair : List.Pairwise (fun a c => a.price < c.price) (lvl :: rest) := by
    rw [← hasks]; exact hasksWF.1
  have hrestWF : ∀ l ∈ rest, levelWF OrderSide.SELL l := by
    intro l hl
    exact hasksWF.2 l (by rw [hasks]; exact List.mem_cons_of_mem lvl hl)
  have hros : ∀ o ∈ ros, levelOrderWF OrderSide.SELL lvl.price o := by
    intro o ho
    exact hlwf.2.1 o (by rw [hlvl]; exact List.mem_cons_of_mem r ho)
  rw [steppedBook_buy_eq bk lvl rest ros r m hp hside2]
  by_cases hf : (fillUpdate r m).is_filled = true
  · rw [if_pos hf]
    by_cases hempty : ros.isEmpty = true
    · rw [if_pos hempty]
      refine ⟨⟨hbids, ⟨(List.pairwise_cons.1 hpair).2, hrestWF⟩, ?_⟩, rfl, ?_⟩
      · intro lb hlb la hla
        exact hcross lb hlb la (by rw [hasks]; exact List.mem_cons_of_mem lvl hla)
      · intro la2 hla2
        exact Or.inr hla2
    · rw [if_neg hempty]
      have hrosne : ros ≠ [] := by
        intro hc
        rw [hc] at hempty
        exact hempty rfl
      refine ⟨⟨hbids, ⟨?_, ?_⟩, ?_⟩, rfl, ?_⟩
      · rw [List.pairwise_cons]
        exact ⟨fun l2 hl2 => (List.pairwise_cons.1 hpair).1 l2 hl2,
          (List.pairwise_cons.1 hpair).2⟩
      · intro l hl
        rcases List.mem_cons.1 hl with hl1 | hl2
        · subst hl1
          refine ⟨hrosne, hros, ?_⟩
          show lvl.total_quantity - r.remaining_quantity
            = (ros.map Order.remaining_quantity).sum
          omega
        · exact hrestWF l hl2
      · intro lb hlb la hla
        rcases List.mem_cons.1 hla with hla1 | hla2
        · subst hla1
          exact hcross lb hlb lvl (by rw [hasks]; exact List.mem_cons_self lvl rest)
        · exact hcross lb hlb la (by rw [hasks]; exact List.mem_cons_of_mem lvl hla2)
      · intro la2 hla2
        rcases List.mem_cons.1 hla2 with h1 | h2
        · subst h1
          exact Or.inl rfl
        · exact Or.inr h2
  · rw [if_neg hf]
    have hf2 : (fillUpdate r m).is_filled = false := by simpa using hf
    refine ⟨⟨hbids, ⟨?_, ?_⟩, ?_⟩, rfl, ?_⟩
    · rw [List.pairwise_cons]
      exact ⟨fun l2 hl2 => (List.pairwise_cons.1 hpair).1 l2 hl2,
        (List.pairwise_cons.1 hpair).2⟩
    · intro l hl
      rcases List.mem_cons.1 hl with hl1 | hl2
      · subst hl1
        refine ⟨List.cons_ne_nil _ _, ?_, ?_⟩
        · intro o ho
          rcases List.mem_cons.1 ho with ho1 | ho2
          · subst ho1
            refine ⟨by rw [fillUpdate_price]; exact hp,
              by rw [fillUpdate_side]; exact hside2,
              (fillUpdate_active_iff r m).2 hf2,
              ?_⟩
            rw [← is_filled_false_iff]
            exact hf2
          · exact hros o ho2
        · show lvl.total_quantity + -m
            = ((fillUpdate r m :: ros).map Order.remaining_quantity).sum
          rw [List.map_cons, List.sum_cons, fillUpdate_remaining, htot]
          ring
      · exact hrestWF l hl2
    · intro lb hlb la hla
      rcases List.mem_cons.1 hla with hla1 | hla2
      · subst hla1
        exact hcross lb hlb lvl (by rw [hasks]; exact List.mem_cons_self lvl rest)
      · exact hcross lb hlb la (by rw [hasks]; exact List.mem_cons_of_mem lvl hla2)
    · intro la2 hla2
      rcases List.mem_cons.1 hla2 with h1 | h2
      · subst h1
        exact Or.inl rfl
      · exact Or.inr h2

theorem wf_steppedBook_sell (bk : OrderBook) (lvl : PriceLevel)
    (rest : List PriceLevel) (r : Order) (ros : List Order) (m : Int)
    (hwf : bookWF bk) (hbids : bk.bids = lvl :: rest) (hlvl : lvl.orders = r :: ros) :
    bookWF (steppedBook bk OrderSide.SELL lvl rest ros (fillUpdate r m) m) ∧
    (steppedBook bk OrderSide.SELL lvl rest ros (fillUpdate r m) m).asks = bk.asks ∧
    (∀ lb2 ∈ (steppedBook bk OrderSide.SELL lvl rest ros (fillUpdate r m) m).bids,
      lb2.price = lvl.price ∨ lb2 ∈ rest) := by
  obtain ⟨hbidsWF, hasks, hcross⟩ := hwf
  have hlwf : levelWF OrderSide.BUY lvl := by
    exact hbidsWF.2 lvl (by rw [hbids]; exact List.mem_cons_self lvl rest)
  obtain ⟨hp, hside2, hact, hrem, htot⟩ := levelWF_front OrderSide.BUY lvl r ros hlvl hlwf
  have hpair : List.Pairwise (fun a c => c.price < a.price) (lvl :: rest) := by
    rw [← hbids]; exact hbidsWF.1
  have hrestWF : ∀ l ∈ rest, levelWF OrderSide.BUY l := by
    intro l hl
    exact hbidsWF.2 l (by rw [hbids]; exact List.mem_cons_of_mem lvl hl)
  have hros : ∀ o ∈ ros, levelOrderWF OrderSide.BUY lvl.price o := by
    intro o ho
    exact hlwf.2.1 o (by rw [hlvl]; exact List.mem_cons_of_mem r ho)
  rw [steppedBook_sell_eq bk lvl rest ros r m hp hside2]
  by_cases hf : (fillUpdate r m).is_filled = true
  · rw [if_pos hf]
    by_cases hempty : ros.isEmpty = true
    · rw [if_pos hempty]
      refine ⟨⟨⟨(List.pairwise_cons.1 hpair).2, hrestWF⟩, hasks, ?_⟩, rfl, ?_⟩
      · intro lb hlb la hla
        exact hcross lb (by rw [hbids]; exact List.mem_cons_of_mem lvl hlb) la hla
      · intro lb2 hlb2
        exact Or.inr hlb2
    · rw [if_neg hempty]
      have hrosne : ros ≠ [] := by
        intro hc
        rw [hc] at hempty
        exact hempty rfl
      refine ⟨⟨⟨?_, ?_⟩, hasks, ?_⟩, rfl, ?_⟩
      · rw [List.pairwise_cons]
        exact ⟨fun l2 hl2 => (List.pairwise_cons.1 hpair).1 l2 hl2,
          (List.pairwise_cons.1 hpair).2⟩
      · intro l hl
        rcases List.mem_cons.1 hl with hl1 | hl2
        · subst hl1
          refine ⟨hrosne, hros, ?_⟩
          show lvl.total_quantity - r.remaining_quantity
            = (ros.map Order.remaining_quantity).sum
          omega
        · exact hrestWF l hl2
      · intro lb hlb la hla
        rcases List.mem_cons.1 hlb with hlb1 | hlb2
        · subst hlb1
          exact hcross lvl (by rw [hbids]; exact List.mem_cons_self lvl rest) la hla
        · exact hcross lb (by rw [hbids]; exact List.mem_cons_of_mem lvl hlb2) la hla
      · intro lb2 hlb2
        rcases List.mem_cons.1 hlb2 with h1 | h2
        · subst h1
          exact Or.inl rfl
        · exact Or.inr h2
  · rw [if_neg hf]
    have hf2 : (fillUpdate r m).is_filled = false := by simpa using hf
    refine ⟨⟨⟨?_, ?_⟩, hasks, ?_⟩, rfl, ?_⟩
    · rw [List.pairwise_cons]
      exact ⟨fun l2 hl2 => (List.pairwise_cons.1 hpair).1 l2 hl2,
        (List.pairwise_cons.1 hpair).2⟩
    · intro l hl
      rcases List.mem_cons.1 hl with hl1 | hl2
      · subst hl1
        refine ⟨List.cons_ne_nil _ _, ?_, ?_⟩
        · intro o ho
          rcases List.mem_cons.1 ho with ho1 | ho2
          · subst ho1
            refine ⟨by rw [fillUpdate_price]; exact hp,
              by rw [fillUpdate_side]; exact hside2,
              (fillUpdate_active_iff r m).2 hf2,
              ?_⟩
            rw [← is_filled_false_iff]
            exact hf2
          · exact hros o ho2
        · show lvl.total_quantity + -m
            = ((fillUpdate r m :: ros).map Order.remaining_quantity).sum
          rw [List.map_cons, List.sum_cons, fillUpdate_remaining, htot]
          ring
      · exact hrestWF l hl2
    · intro lb hlb la hla
      rcases List.mem_cons.1 hlb with hlb1 | hlb2
      · subst hlb1
        exact hcross lvl (by rw [hbids]; exact List.mem_cons_self lvl rest) la hla
      · exact hcross lb (by rw [hbids]; exact List.mem_cons_of_mem lvl hlb2) la hla
    · intro lb2 hlb2
      rcases List.mem_cons.1 hlb2 with h1 | h2
      · subst h1
        exact Or.inl rfl
      · exact Or.inr h2

/-! ## Guard analysis and loop measures -/

theorem can_match_of_empty (b : OrderBook) (o : Order)
    (h : opposing b o.side = []) : can_match b o = false := by
  cases hside : o.side
  · have h2 : b.asks = [] := by rw [hside] at h; exact h
    simp [can_match, OrderBook.best_ask, hside, h2]
  · have h2 : b.bids = [] := by rw [hside] at h; exact h
    simp [can_match, OrderBook.best_bid, hside, h2]

theorem can_match_buy_iff (b : OrderBook) (o : Order) (lvl : PriceLevel)
    (rest : List PriceLevel) (hside : o.side = OrderSide.BUY)
    (h : b.asks = lvl :: rest) :
    can_match b o = true ↔ (o.type = OrderType.MARKET ∨ lvl.price ≤ o.price) := by
  simp [can_match, OrderBook.best_ask, hside, h]

theorem can_match_sell_iff (b : OrderBook) (o : Order) (lvl : PriceLevel)
    (rest : List PriceLevel) (hside : o.side = OrderSide.SELL)
    (h : b.bids = lvl :: rest) :
    can_match b o = true ↔ (o.type = OrderType.MARKET ∨ o.price ≤ lvl.price) := by
  simp [can_match, OrderBook.best_bid, hside, h]

theorem try_match_book_facts (st : EngineState) (o : Order) (hwf : bookWF st.book) :
    bookWF (try_match st o).1.book ∧
    (o.side = OrderSide.BUY → (try_match st o).1.book.bids = st.book.bids) ∧
    (o.side = OrderSide.SELL → (try_match st o).1.book.asks = st.book.asks) := by
  rcases try_match_cases st o with h | ⟨lvl, rest, r, ros, hopp, hlvl, hact, hpr, heq⟩
  · rw [h]
    exact ⟨hwf, fun _ => rfl, fun _ => rfl⟩
  · rw [heq]
    dsimp only
    cases hside : o.side
    · have hasks : st.book.asks = lvl :: rest := by rw [hside] at hopp; exact hopp
      have h3 := wf_steppedBook_buy st.book lvl rest r ros
        (min o.remaining_quantity r.remaining_quantity) hwf hasks hlvl
      exact ⟨h3.1, fun _ => h3.2.1, fun hs => nomatch hs⟩
    · have hbids : st.book.bids = lvl :: rest := by rw [hside] at hopp; exact hopp
      have h3 := wf_steppedBook_sell st.book lvl rest r ros
        (min o.remaining_quantity r.remaining_quantity) hwf hbids hlvl
      exact ⟨h3.1, (fun hs => nomatch hs), fun _ => h3.2.1⟩

theorem try_match_matched_of_guard (st : EngineState) (o : Order)
    (hwf : bookWF st.book) (hcm : can_match st.book o = true) :
    (try_match st o).2.2 = true := by
  cases hside : o.side
  · rcases hasks : st.book.asks with _ | ⟨lvl, rest⟩
    · have h := can_match_of_empty st.book o (by rw [hside]; exact hasks)
      rw [h] at hcm
      exact Bool.noConfusion hcm
    · have hcm2 := (can_match_buy_iff st.book o lvl rest hside hasks).1 hcm
      have hlwf : levelWF OrderSide.SELL lvl :=
        hwf.2.1.2 lvl (by rw [hasks]; exact List.mem_cons_self lvl rest)
      obtain ⟨r, ros, hlvl⟩ := List.exists_cons_of_ne_nil hlwf.1
      have hact : r.is_active = true :=
        (hlwf.2.1 r (by rw [hlvl]; exact List.mem_cons_self r ros)).2.2.1
      rw [try_match_matched_buy st o lvl rest r ros hside hasks hlvl hact hcm2]
  · rcases hbids : st.book.bids with _ | ⟨lvl, rest⟩
    · have h := can_match_of_empty st.book o (by rw [hside]; exact hbids)
      rw [h] at hcm
      exact Bool.noConfusion hcm
    · have hcm2 := (can_match_sell_iff st.book o lvl rest hside hbids).1 hcm
      have hlwf : levelWF OrderSide.BUY lvl :=
        hwf.1.2 lvl (by rw [hbids]; exact List.mem_cons_self lvl rest)
      obtain ⟨r, ros, hlvl⟩ := List.exists_cons_of_ne_nil hlwf.1
      have hact : r.is_active = true :=
        (hlwf.2.1 r (by rw [hlvl]; exact List.mem_cons_self r ros)).2.2.1
      rw [try_match_matched_sell st o lvl rest r ros hside hbids hlvl hact hcm2]

theorem matchLoop_of_inactive : ∀ (f : Nat) (st : EngineState) (o : Order),
    o.is_active = false → matchLoop f st o = (st, o)
  | 0, _, _, _ => rfl
  | Nat.succ n, st, o, h => by
      unfold matchLoop
      simp [h]

theorem marketLoop_of_inactive : ∀ (f : Nat) (st : EngineState) (o : Order),
    o.is_active = false → marketLoop f st o = (st, o)
  | 0, _, _, _ => rfl
  | Nat.succ n, st, o, h => by
      unfold marketLoop
      simp [h]

theorem sideOrderCount_cons (l : PriceLevel) (ls : List PriceLevel) :
    sideOrderCount (l :: ls) = l.orders.length + sideOrderCount ls := by
  simp [sideOrderCount]

theorem try_match_side (st : EngineState) (o : Order) :
    (try_match st o).2.1.side = o.side := by
  rcases try_match_cases st o with h | ⟨lvl, rest, r, ros, _, _, _, _, heq⟩
  · rw [h]
  · rw [heq]
    exact fillUpdate_side o _

theorem matched_count_decrease (st : EngineState) (o : Order) (hwf : bookWF st.book)
    (hmat : (try_match st o).2.2 = true)
    (hact2 : (try_match st o).2.1.is_active = true) :
    sideOrderCount (opposing (try_match st o).1.book o.side)
      < sideOrderCount (opposing st.book o.side) := by
  rcases try_match_cases st o with h | ⟨lvl, rest, r, ros, hopp, hlvl, hact, hpr, heq⟩
  · rw [h] at hmat
    exact Bool.noConfusion hmat
  · rw [heq] at hact2 ⊢
    dsimp only at hact2 ⊢
    have honf : (fillUpdate o (min o.remaining_quantity r.remaining_quantity)).is_filled
        = false := (fillUpdate_active_iff o _).1 hact2
    have homlt : min o.remaining_quantity r.remaining_quantity < o.remaining_quantity := by
      have h2 : ¬(o.remaining_quantity ≤ min o.remaining_quantity r.remaining_quantity) := by
        intro hc
        rw [(fillUpdate_is_filled o _).2 hc] at honf
        exact Bool.noConfusion honf
      omega
    have hmr : min o.remaining_quantity r.remaining_quantity = r.remaining_quantity := by
      rcases le_total o.remaining_quantity r.remaining_quantity with h1 | h1
      · exfalso
        rw [min_eq_left h1] at homlt
        omega
      · exact min_eq_right h1
    have hrf : (fillUpdate r (min o.remaining_quantity r.remaining_quantity)).is_filled
        = true := (fillUpdate_is_filled r _).2 (by omega)
    have hlen : lvl.orders.length = ros.length + 1 := by
      rw [hlvl]
      simp
    cases hside : o.side
    · have hasks : st.book.asks = lvl :: rest := by rw [hside] at hopp; exact hopp
      obtain ⟨hp, hside2, _, _, _⟩ := levelWF_front OrderSide.SELL lvl r ros hlvl
        (hwf.2.1.2 lvl (by rw [hasks]; exact List.mem_cons_self lvl rest))
      show sideOrderCount
        (steppedBook st.book OrderSide.BUY lvl rest ros (fillUpdate r _) _).asks
        < sideOrderCount st.book.asks
      rw [steppedBook_buy_eq st.book lvl rest ros r _ hp hside2]
      dsimp only
      rw [if_pos hrf, hasks]
      by_cases he : ros.isEmpty = true
      · rw [if_pos he, sideOrderCount_cons]
        omega
      · rw [if_neg he, sideOrderCount_cons, sideOrderCount_cons]
        dsimp only
        omega
    · have hbids : st.book.bids = lvl :: rest := by rw [hside] at hopp; exact hopp
      obtain ⟨hp, hside2, _, _, _⟩ := levelWF_front OrderSide.BUY lvl r ros hlvl
        (hwf.1.2 lvl (by rw [hbids]; exact List.mem_cons_self lvl rest))
      show sideOrderCount
        (steppedBook st.book OrderSide.SELL lvl rest ros (fillUpdate r _) _).bids
        < sideOrderCount st.book.bids
      rw [steppedBook_sell_eq st.book lvl rest ros r _ hp hside2]
      dsimp only
      rw [if_pos hrf, hbids]
      by_cases he : ros.isEmpty = true
      · rw [if_pos he, sideOrderCount_cons]
        omega
      · rw [if_neg he, sideOrderCount_cons, sideOrderCount_cons]
        dsimp only
        omega

theorem matchLoop_wf : ∀ (f : Nat) (st : EngineState) (o : Order),
    bookWF st.book →
    bookWF (matchLoop f st o).1.book ∧
    (o.side = OrderSide.BUY → (matchLoop f st o).1.book.bids = st.book.bids) ∧
    (o.side = OrderSide.SELL → (matchLoop f st o).1.book.asks = st.book.asks) := by
  intro f
  induction f with
  | zero => exact fun st o h => ⟨h, fun _ => rfl, fun _ => rfl⟩
  | succ n ih =>
      intro st o hwf
      unfold matchLoop
      split
      · split
        · have hfacts := try_match_book_facts st o hwf
          have hih := ih (try_match st o).1 (try_match st o).2.1 hfacts.1
          have hside2 := try_match_side st o
          refine ⟨hih.1, ?_, ?_⟩
          · intro hs
            rw [hih.2.1 (by rw [hside2, hs]), hfacts.2.1 hs]
          · intro hs
            rw [hih.2.2 (by rw [hside2, hs]), hfacts.2.2 hs]
        · exact try_match_book_facts st o hwf
      · exact ⟨hwf, fun _ => rfl, fun _ => rfl⟩

theorem marketLoop_wf : ∀ (f : Nat) (st : EngineState) (o : Order),
    bookWF st.book →
    bookWF (marketLoop f st o).1.book ∧
    (o.side = OrderSide.BUY → (marketLoop f st o).1.book.bids = st.book.bids) ∧
    (o.side = OrderSide.SELL → (marketLoop f st o).1.book.asks = st.book.asks) := by
  intro f
  induction f with
  | zero => exact fun st o h => ⟨h, fun _ => rfl, fun _ => rfl⟩
  | succ n ih =>
      intro st o hwf
      unfold marketLoop
      split
      · split
        · have hfacts := try_match_book_facts st o hwf
          have hih := ih (try_match st o).1 (try_match st o).2.1 hfacts.1
          have hside2 := try_match_side st o
          refine ⟨hih.1, ?_, ?_⟩
          · intro hs
            rw [hih.2.1 (by rw [hside2, hs]), hfacts.2.1 hs]
          · intro hs
            rw [hih.2.2 (by rw [hside2, hs]), hfacts.2.2 hs]
        · exact try_match_book_facts st o hwf
      · exact ⟨hwf, fun _ => rfl, fun _ => rfl⟩

/-- With fuel at least one more than the number of opposing resting orders,
the limit matching loop runs to completion: at its exit the C++ loop guard
`order->is_active() && can_match(order)` is false, exactly as when the
source's unbounded `while` loop terminates. -/
theorem matchLoop_exit : ∀ (f : Nat) (st : EngineState) (o : Order),
    bookWF st.book →
    sideOrderCount (opposing st.book o.side) + 1 ≤ f →
    ¬((matchLoop f st o).2.is_active = true ∧
      can_match (matchLoop f st o).1.book (matchLoop f st o).2 = true) := by
  intro f
  induction f with
  | zero =>
      intro st o _ hf
      exact absurd hf (Nat.not_succ_le_zero _)
  | succ n ih =>
      intro st o hwf hf
      unfold matchLoop
      split
      next hguard =>
        split
        next hmat =>
          by_cases hact2 : (try_match st o).2.1.is_active = true
          · have hdec := matched_count_decrease st o hwf hmat hact2
            have hwf2 := (try_match_book_facts st o hwf).1
            have hside2 := try_match_side st o
            apply ih (try_match st o).1 (try_match st o).2.1 hwf2
            rw [hside2]
            omega
          · have hact3 : (try_match st o).2.1.is_active = false := by simpa using hact2
            rw [matchLoop_of_inactive n (try_match st o).1 (try_match st o).2.1 hact3]
            simp [hact3]
        next hmat =>
          exfalso
          rw [Bool.and_eq_true] at hguard
          exact hmat (try_match_matched_of_guard st o hwf hguard.2)
      next hguard =>
        intro hc
        apply hguard
        rw [Bool.and_eq_true]
        exact ⟨hc.1, hc.2⟩

/-! ## Resting an order preserves well-formedness -/

theorem priceLevel_add_order_price (l : PriceLevel) (o : Order) :
    (l.add_order o).price = l.price := rfl

theorem insertOrder_mem (cmp : Int → Int → Bool) :
    ∀ (ls : List PriceLevel) (o : Order) (l2 : PriceLevel),
      l2 ∈ insertOrder cmp ls o → l2.price = o.price ∨ l2 ∈ ls := by
  intro ls
  induction ls with
  | nil =>
      intro o l2 h
      unfold insertOrder at h
      rw [List.mem_singleton] at h
      subst h
      left
      rfl
  | cons l rest ih =>
      intro o l2 h
      unfold insertOrder at h
      split at h
      · rcases List.mem_cons.1 h with h1 | h2
        · subst h1
          left
          rfl
        · right
          exact h2
      · split at h
        next heq =>
          rcases List.mem_cons.1 h with h1 | h2
          · subst h1
            left
            rw [priceLevel_add_order_price]
            exact heq.symm
          · right
            exact List.mem_cons_of_mem l h2
        next hne =>
          rcases List.mem_cons.1 h with h1 | h2
          · right
            rw [h1]
            exact List.mem_cons_self l rest
          · rcases ih o l2 h2 with h3 | h4
            · left
              exact h3
            · right
              exact List.mem_cons_of_mem l h4

theorem levelWF_new (side : OrderSide) (o : Order)
    (hs : o.side = side) (ha : o.is_active = true) (hr : 0 < o.remaining_quantity) :
    levelWF side (PriceLevel.add_order ⟨o.price, 0, []⟩ o) := by
  refine ⟨by simp [PriceLevel.add_order], ?_, ?_⟩
  · intro o2 ho2
    have h2 : o2 = o := by simpa [PriceLevel.add_order] using ho2
    subst h2
    exact ⟨rfl, hs, ha, hr⟩
  · simp [PriceLevel.add_order]

theorem levelWF_append (side : OrderSide) (l : PriceLevel) (o : Order)
    (hl : levelWF side l) (hp : o.price = l.price)
    (hs : o.side = side) (ha : o.is_active = true) (hr : 0 < o.remaining_quantity) :
    levelWF side (l.add_order o) := by
  obtain ⟨h1, h2, h3⟩ := hl
  refine ⟨by simp [PriceLevel.add_order], ?_, ?_⟩
  · intro o2 ho2
    rcases (by simpa [PriceLevel.add_order] using ho2 : o2 ∈ l.orders ∨ o2 = o) with h4 | h5
    · exact h2 o2 h4
    · subst h5
      exact ⟨hp, hs, ha, hr⟩
  · show l.total_quantity + o.remaining_quantity
      = ((l.orders ++ [o]).map Order.remaining_quantity).sum
    rw [List.map_append, List.sum_append, h3]
    simp

theorem insertOrder_levelWF (side : OrderSide) (cmp : Int → Int → Bool) :
    ∀ (ls : List PriceLevel) (o : Order),
      (∀ l ∈ ls, levelWF side l) →
      o.side = side → o.is_active = true → 0 < o.remaining_quantity →
      ∀ l2 ∈ insertOrder cmp ls o, levelWF side l2 := by
  intro ls
  induction ls with
  | nil =>
      intro o _ hs ha hr l2 h
      unfold insertOrder at h
      rw [List.mem_singleton] at h
      subst h
      exact levelWF_new side o hs ha hr
  | cons l rest ih =>
      intro o hlv hs ha hr l2 h
      unfold insertOrder at h
      split at h
      · rcases List.mem_cons.1 h with h1 | h2
        · subst h1
          exact levelWF_new side o hs ha hr
        · exact hlv l2 h2
      · split at h
        next heq =>
          rcases List.mem_cons.1 h with h1 | h2
          · subst h1
            exact levelWF_append side l o (hlv l (List.mem_cons_self l rest)) heq hs ha hr
          · exact hlv l2 (List.mem_cons_of_mem l h2)
        next hne =>
          rcases List.mem_cons.1 h with h1 | h2
          · rw [h1]
            exact hlv l (List.mem_cons_self l rest)
          · exact ih o (fun l3 hl3 => hlv l3 (List.mem_cons_of_mem l hl3)) hs ha hr l2 h2

theorem insertOrder_pairwise (cmp : Int → Int → Bool) (R : Int → Int → Prop)
    (hcmp : ∀ a c, cmp a c = true → R a c)
    (hcmp2 : ∀ a c, cmp a c = false → a ≠ c → R c a)
    (htrans : ∀ a b c, R a b → R b c → R a c) :
    ∀ (ls : List PriceLevel) (o : Order),
      List.Pairwise (fun a c => R a.price c.price) ls →
      List.Pairwise (fun a c => R a.price c.price) (insertOrder cmp ls o) := by
  intro ls
  induction ls with
  | nil =>
      intro o _
      unfold insertOrder
      exact List.pairwise_singleton _ _
  | cons l rest ih =>
      intro o hp
      unfold insertOrder
      split
      next hc =>
        rw [List.pairwise_cons]
        refine ⟨?_, hp⟩
        intro l2 hl2
        show R o.price l2.price
        rcases List.mem_cons.1 hl2 with h1 | h2
        · subst h1
          exact hcmp _ _ hc
        · exact htrans _ _ _ (hcmp _ _ hc) ((List.pairwise_cons.1 hp).1 l2 h2)
      next hc =>
        split
        next heq =>
          rw [List.pairwise_cons] at hp ⊢
          refine ⟨?_, hp.2⟩
          intro l2 hl2
          show R l.price l2.price
          exact hp.1 l2 hl2
        next hne =>
          rw [List.pairwise_cons] at hp ⊢
          refine ⟨?_, ih o hp.2⟩
          intro l2 hl2
          rcases insertOrder_mem cmp rest o l2 hl2 with h1 | h2
          · rw [h1]
            exact hcmp2 _ _ (by simpa using hc) hne
          · exact hp.1 l2 h2

/-- Adding an active order that cannot match (its price does not cross the
opposing best, or the opposing side is empty) preserves the book invariant,
and the opposing side is untouched. -/
theorem wf_add_order (b : OrderBook) (o : Order) (hwf : bookWF b)
    (hact : o.is_active = true) (hrem : 0 < o.remaining_quantity)
    (hnc : can_match b o = false) :
    bookWF (b.add_order o).1 ∧
    (o.side = OrderSide.BUY → (b.add_order o).1.asks = b.asks) ∧
    (o.side = OrderSide.SELL → (b.add_order o).1.bids = b.bids) := by
  unfold OrderBook.add_order
  split
  · exact ⟨hwf, fun _ => rfl, fun _ => rfl⟩
  · dsimp only
    cases hside : o.side
    · refine ⟨⟨⟨?_, ?_⟩, hwf.2.1, ?_⟩, (fun _ => rfl), fun hs => nomatch hs⟩
      · exact insertOrder_pairwise bidBefore (fun a c => c < a)
          (fun a c hc => by simpa [bidBefore] using hc)
          (fun a c hc hne => by
            simp only [bidBefore, decide_eq_false_iff_not, not_lt] at hc
            omega)
          (fun a bb c h1 h2 => lt_trans h2 h1)
          b.bids _ hwf.1.1
      · exact insertOrder_levelWF OrderSide.BUY bidBefore b.bids _ hwf.1.2 rfl hact hrem
      · intro lb hlb la hla
        rcases insertOrder_mem bidBefore b.bids _ lb hlb with h1 | h2
        · rw [h1]
          show o.price < la.price
          rcases hasks : b.asks with _ | ⟨lvl, rest⟩
          · rw [hasks] at hla
            exact absurd hla (List.not_mem_nil la)
          · have h5 : ¬(o.type = OrderType.MARKET ∨ lvl.price ≤ o.price) := by
              intro hcc
              rw [(can_match_buy_iff b o lvl rest hside hasks).2 hcc] at hnc
              exact Bool.noConfusion hnc
            have h6 : o.price < lvl.price := by
              rcases not_or.1 h5 with ⟨_, h7⟩
              omega
            rw [hasks] at hla
            rcases List.mem_cons.1 hla with h8 | h9
            · rw [h8]
              exact h6
            · have h10 : lvl.price < la.price := by
                have hp2 := hwf.2.1.1
                rw [hasks, List.pairwise_cons] at hp2
                exact hp2.1 la h9
              omega
        · exact hwf.2.2 lb h2 la hla
    · refine ⟨⟨hwf.1, ⟨?_, ?_⟩, ?_⟩, (fun hs => nomatch hs), fun _ => rfl⟩
      · exact insertOrder_pairwise askBefore (fun a c => a < c)
          (fun a c hc => by simpa [askBefore] using hc)
          (fun a c hc hne => by
            simp only [askBefore, decide_eq_false_iff_not, not_lt] at hc
            omega)
          (fun a bb c h1 h2 => lt_trans h1 h2)
          b.asks _ hwf.2.1.1
      · exact insertOrder_levelWF OrderSide.SELL askBefore b.asks _ hwf.2.1.2 rfl hact hrem
      · intro lb hlb la hla
        rcases insertOrder_mem askBefore b.asks _ la hla with h1 | h2
        · rw [h1]
          show lb.price < o.price
          rcases hbids : b.bids with _ | ⟨lvl, rest⟩
          · rw [hbids] at hlb
            exact absurd hlb (List.not_mem_nil lb)
          · have h5 : ¬(o.type = OrderType.MARKET ∨ o.price ≤ lvl.price) := by
              intro hcc
              rw [(can_match_sell_iff b o lvl rest hside hbids).2 hcc] at hnc
              exact Bool.noConfusion hnc
            have h6 : lvl.price < o.price := by
              rcases not_or.1 h5 with ⟨_, h7⟩
              omega
            rw [hbids] at hlb
            rcases List.mem_cons.1 hlb with h8 | h9
            · rw [h8]
              exact h6
            · have h10 : lb.price < lvl.price := by
                have hp2 := hwf.1.1
                rw [hbids, List.pairwise_cons] at hp2
                exact hp2.1 lb h9
              omega
        · exact hwf.2.2 lb hlb la h2

theorem match_limit_order_wf (st : EngineState) (o : Order) (hwf : bookWF st.book) :
    bookWF (match_limit_order st o).1.book := by
  have hloop := matchLoop_wf (loopFuel st.book o.side) st o hwf
  have hexit := matchLoop_exit (loopFuel st.book o.side) st o hwf
    (by unfold loopFuel; omega)
  unfold match_limit_order
  split
  next hcond =>
    rw [Bool.and_eq_true] at hcond
    have hnc : can_match (matchLoop (loopFuel st.book o.side) st o).1.book
        (matchLoop (loopFuel st.book o.side) st o).2 = false := by
      by_contra hc
      exact hexit ⟨hcond.1, by simpa using hc⟩
    have hrem : 0 < (matchLoop (loopFuel st.book o.side) st o).2.remaining_quantity := by
      have := hcond.2
      simpa using this
    exact (wf_add_order _ _ hloop.1 hcond.1 hrem hnc).1
  next =>
    exact hloop.1

theorem process_new_order_wf (st : EngineState) (o : Order) (hwf : bookWF st.book) :
    bookWF (process_new_order st o).1.book := by
  unfold process_new_order
  split
  · unfold match_market_order
    split
    · dsimp only
      exact (marketLoop_wf _ { st with stats := { st.stats with
          orders_processed := st.stats.orders_processed + 1 } } o hwf).1
    · exact (marketLoop_wf _ { st with stats := { st.stats with
          orders_processed := st.stats.orders_processed + 1 } } o hwf).1
  · exact match_limit_order_wf { st with stats := { st.stats with
        orders_processed := st.stats.orders_processed + 1 } } o hwf

/-! ## Cancelling preserves well-formedness -/

theorem find_remove (orders : List Order) (i : Nat) (x : Order)
    (hfind : orders.find? (fun o => decide (o.id = i)) = some x) :
    x.id = i ∧
    ∃ pre post, orders = pre ++ x :: post ∧ (∀ o2 ∈ pre, o2.id ≠ i) ∧
      removeById orders i = (pre ++ post, x.remaining_quantity) := by
  induction orders with
  | nil => exact absurd hfind (by simp)
  | cons o rest ih =>
      rw [List.find?_cons] at hfind
      by_cases hid : o.id = i
      · have hd : decide (o.id = i) = true := by simpa using hid
        rw [hd] at hfind
        have hx : o = x := by simpa using hfind
        subst hx
        refine ⟨hid, [], rest, rfl, by simp, ?_⟩
        unfold removeById
        rw [if_pos hid]
        rfl
      · have hd : decide (o.id = i) = false := by simpa using hid
        rw [hd] at hfind
        have hfind2 : List.find? (fun o => decide (o.id = i)) rest = some x := by
          simpa using hfind
        obtain ⟨h1, pre, post, h2, hpre, h3⟩ := ih hfind2
        refine ⟨h1, o :: pre, post, by rw [h2]; rfl, ?_, ?_⟩
        · intro o2 ho2
          rcases List.mem_cons.1 ho2 with h4 | h5
          · rw [h4]
            exact hid
          · exact hpre o2 h5
        · unfold removeById
          rw [if_neg hid, h3]
          rfl

theorem cancelInSide_wf (sideTag : OrderSide) (R : Int → Int → Prop)
    (ls : List PriceLevel) (i : Nat)
    (hpair : List.Pairwise (fun a c => R a.price c.price) ls)
    (hlv : ∀ l ∈ ls, levelWF sideTag l) :
    List.Pairwise (fun a c => R a.price c.price) (cancelInSide ls i).1 ∧
    (∀ l2 ∈ (cancelInSide ls i).1, levelWF sideTag l2) ∧
    (∀ l2 ∈ (cancelInSide ls i).1, ∃ l ∈ ls, l2.price = l.price) := by
  induction ls with
  | nil => exact ⟨List.Pairwise.nil, by simp [cancelInSide], by simp [cancelInSide]⟩
  | cons l rest ih =>
      have hpair2 := (List.pairwise_cons.1 hpair).2
      have hlv2 : ∀ l2 ∈ rest, levelWF sideTag l2 :=
        fun l2 hl2 => hlv l2 (List.mem_cons_of_mem l hl2)
      unfold cancelInSide
      rcases hfind : l.find_order i with _ | x
      · obtain ⟨ihp, ihl, ihm⟩ := ih hpair2 hlv2
        dsimp only
        refine ⟨?_, ?_, ?_⟩
        · rw [List.pairwise_cons]
          refine ⟨?_, ihp⟩
          intro l2 hl2
          obtain ⟨l3, hl3, hp3⟩ := ihm l2 hl2
          rw [hp3]
          exact (List.pairwise_cons.1 hpair).1 l3 hl3
        · intro l2 hl2
          rcases List.mem_cons.1 hl2 with h1 | h2
          · rw [h1]
            exact hlv l (List.mem_cons_self l rest)
          · exact ihl l2 h2
        · intro l2 hl2
          rcases List.mem_cons.1 hl2 with h1 | h2
          · exact ⟨l, List.mem_cons_self l rest, by rw [h1]⟩
          · obtain ⟨l3, hl3, hp3⟩ := ihm l2 h2
            exact ⟨l3, List.mem_cons_of_mem l hl3, hp3⟩
      · -- found: the level shrinks (and is erased when now empty)
        obtain ⟨hxid, pre, post, hdecomp, hprene, hrem⟩ := find_remove l.orders i x hfind
        have hlwf := hlv l (List.mem_cons_self l rest)
        have hl2eq : l.remove_order { x with status := OrderStatus.CANCELLED }
            = ⟨l.price, l.total_quantity - x.remaining_quantity, pre ++ post⟩ := by
          unfold PriceLevel.remove_order
          dsimp only
          rw [show ({ x with status := OrderStatus.CANCELLED } : Order).id = x.id from rfl,
            hxid, hrem]
        dsimp only
        rw [hl2eq]
        have hshrunkWF : (pre ++ post ≠ []) →
            levelWF sideTag ⟨l.price, l.total_quantity - x.remaining_quantity, pre ++ post⟩ := by
          intro hne
          refine ⟨hne, ?_, ?_⟩
          · intro o2 ho2
            apply hlwf.2.1 o2
            rw [hdecomp]
            rcases List.mem_append.1 ho2 with h1 | h2
            · exact List.mem_append.2 (Or.inl h1)
            · exact List.mem_append.2 (Or.inr (List.mem_cons_of_mem x h2))
          · show l.total_quantity - x.remaining_quantity
              = ((pre ++ post).map Order.remaining_quantity).sum
            have htot := hlwf.2.2
            rw [hdecomp] at htot
            rw [List.map_append, List.sum_append] at htot ⊢
            rw [List.map_cons, List.sum_cons] at htot
            omega
        by_cases hemp : (⟨l.price, l.total_quantity - x.remaining_quantity,
            pre ++ post⟩ : PriceLevel).empty = true
        · rw [if_pos hemp]
          refine ⟨hpair2, hlv2, ?_⟩
          intro l2 hl2
          exact ⟨l2, List.mem_cons_of_mem l hl2, rfl⟩
        · rw [if_neg hemp]
          have hne : pre ++ post ≠ [] := by
            intro hc
            apply hemp
            unfold PriceLevel.empty
            dsimp only
            rw [hc]
            rfl
          refine ⟨?_, ?_, ?_⟩
          · rw [List.pairwise_cons]
            refine ⟨?_, hpair2⟩
            intro l2 hl2
            exact (List.pairwise_cons.1 hpair).1 l2 hl2
          · intro l2 hl2
            rcases List.mem_cons.1 hl2 with h1 | h2
            · rw [h1]
              exact hshrunkWF hne
            · exact hlv2 l2 h2
          · intro l2 hl2
            rcases List.mem_cons.1 hl2 with h1 | h2
            · exact ⟨l, List.mem_cons_self l rest, by rw [h1]⟩
            · exact ⟨l2, List.mem_cons_of_mem l h2, rfl⟩

theorem wf_cancel (b : OrderBook) (i : Nat) (hwf : bookWF b) :
    bookWF (b.cancel_order i).1 := by
  have hbids := cancelInSide_wf OrderSide.BUY (fun a c => c < a) b.bids i hwf.1.1 hwf.1.2
  have hasks := cancelInSide_wf OrderSide.SELL (fun a c => a < c) b.asks i hwf.2.1.1 hwf.2.1.2
  unfold OrderBook.cancel_order
  split
  next bids2 o2 heq =>
    rw [show bids2 = (cancelInSide b.bids i).1 by rw [heq]]
    refine ⟨⟨hbids.1, hbids.2.1⟩, hwf.2.1, ?_⟩
    intro lb hlb la hla
    obtain ⟨l3, hl3, hp3⟩ := hbids.2.2 lb hlb
    rw [hp3]
    exact hwf.2.2 l3 hl3 la hla
  next heq =>
    split
    next asks2 o2 heq2 =>
      rw [show asks2 = (cancelInSide b.asks i).1 by rw [heq2]]
      refine ⟨hwf.1, ⟨hasks.1, hasks.2.1⟩, ?_⟩
      intro lb hlb la hla
      obtain ⟨l3, hl3, hp3⟩ := hasks.2.2 la hla
      rw [hp3]
      exact hwf.2.2 lb hlb l3 hl3
    next => exact hwf

theorem process_cancel_order_wf (st : EngineState) (i : Nat) (hwf : bookWF st.book) :
    bookWF (process_cancel_order st i).book := by
  unfold process_cancel_order
  split
  · exact wf_cancel st.book i hwf
  · exact hwf

/-- The master invariant-preservation theorem: every engine event keeps the
book well-formed. -/
theorem process_event_wf (st : EngineState) (e : OrderEvent) (hwf : bookWF st.book) :
    bookWF (process_event st e).book := by
  unfold process_event
  split
  · exact process_new_order_wf st e.order hwf
  · exact process_cancel_order_wf st e.cancel_order_id hwf
  · unfold process_replace_order
    exact process_new_order_wf _ e.order
      (process_cancel_order_wf st e.cancel_order_id hwf)
  · exact hwf

theorem matchLoop_stuck : ∀ (f : Nat) (st : EngineState) (o : Order),
    can_match st.book o = false → matchLoop f st o = (st, o)
  | 0, _, _, _ => rfl
  | Nat.succ n, st, o, h => by
      unfold matchLoop
      rw [h]
      simp

theorem marketLoop_stuck : ∀ (f : Nat) (st : EngineState) (o : Order),
    can_match st.book o = false → marketLoop f st o = (st, o)
  | 0, _, _, _ => rfl
  | Nat.succ n, st, o, h => by
      unfold marketLoop
      rw [h]
      simp

/-- Witness for C10: id 2 is unknown to the concrete book, and replacing it
still processes the new order. -/
theorem replace_unknown_id_processes_new_witness :
    (2 ∉ bookIds witState.book) ∧
    process_replace_order witState 2 witNewSell = process_new_order witState witNewSell :=
  ⟨by decide, (replace_unknown_id_processes_new witState 2 witNewSell (by decide)).1⟩

/-- C2: starting from a well-formed book, after the engine finishes
processing any single event (new order, cancel, replace, or shutdown),
whenever both a best bid and a best ask exist, the best bid price is
strictly below the best ask price — the book is never left crossed. -/
theorem book_never_crossed (st : EngineState) (e : OrderEvent)
    (hwf : bookWF st.book) :
    ∀ pb pa, (process_event st e).book.best_bid = some pb →
      (process_event st e).book.best_ask = some pa → pb < pa :=
  uncrossed_of_wf (process_event st e).book (process_event_wf st e hwf)

/-- Witness for C2 at a concrete well-formed state and new-order event. -/
theorem book_never_crossed_witness :
    bookWF witState.book ∧
    (∀ pb pa, (process_event witState witEventNew).book.best_bid = some pb →
      (process_event witState witEventNew).book.best_ask = some pa → pb < pa) :=
  ⟨by decide, book_never_crossed witState witEventNew (by decide)⟩

/-- C5: starting from a well-formed book, after the engine processes any
event, every price level still present on either side is non-empty (empty
levels are erased together with their map key) and caches exactly the sum
of its orders' remaining quantities. -/
theorem level_invariants (st : EngineState) (e : OrderEvent) (hwf : bookWF st.book) :
    ∀ l ∈ (process_event st e).book.bids ++ (process_event st e).book.asks,
      l.orders ≠ [] ∧
      l.total_quantity = (l.orders.map Order.remaining_quantity).sum := by
  intro l hl
  have hwf2 := process_event_wf st e hwf
  rcases List.mem_append.1 hl with h | h
  · have h2 := hwf2.1.2 l h
    exact ⟨h2.1, h2.2.2⟩
  · have h2 := hwf2.2.1.2 l h
    exact ⟨h2.1, h2.2.2⟩

/-- Witness for C5 at a concrete well-formed state and new-order event. -/
theorem level_invariants_witness :
    bookWF witState.book ∧
    (∀ l ∈ (process_event witState witEventNew).book.bids
        ++ (process_event witState witEventNew).book.asks,
      l.orders ≠ [] ∧
      l.total_quantity = (l.orders.map Order.remaining_quantity).sum) :=
  ⟨by decide, level_invariants witState witEventNew (by decide)⟩

/-- C7: a MARKET order that still has remaining quantity once the opposing
side is exhausted ends with status REJECTED; market orders are never
inserted into the book (their own side is untouched); in the empty-book
case no trades occur, the book is unchanged, and a market order with
positive quantity is REJECTED. -/
theorem market_order_never_rests (st : EngineState) (o : Order)
    (hm : o.type = OrderType.MARKET) (hwf : bookWF st.book) :
    (0 < (process_new_order st o).2.remaining_quantity →
      (process_new_order st o).2.status = OrderStatus.REJECTED) ∧
    (o.side = OrderSide.BUY → (process_new_order st o).1.book.bids = st.book.bids) ∧
    (o.side = OrderSide.SELL → (process_new_order st o).1.book.asks = st.book.asks) ∧
    (opposing st.book o.side = [] →
      (process_new_order st o).1.trades = st.trades ∧
      (process_new_order st o).1.book = st.book ∧
      (0 < o.remaining_quantity →
        (process_new_order st o).2.status = OrderStatus.REJECTED)) := by
  have hloop := marketLoop_wf (loopFuel st.book o.side)
    { st with stats := { st.stats with
        orders_processed := st.stats.orders_processed + 1 } } o hwf
  unfold process_new_order
  rw [if_pos hm]
  unfold match_market_order
  refine ⟨?_, ?_, ?_, ?_⟩
  · split
    · exact fun _ => rfl
    next hc =>
      intro hpos
      exact absurd (by simpa using hpos : (0 : Int) <
        ((marketLoop _ _ o).2).remaining_quantity) (by simpa using hc)
  · intro hs
    split
    · exact hloop.2.1 hs
    · exact hloop.2.1 hs
  · intro hs
    split
    · exact hloop.2.2 hs
    · exact hloop.2.2 hs
  · intro hopp
    have hcm : can_match st.book o = false := can_match_of_empty st.book o hopp
    have hstuck := marketLoop_stuck (loopFuel
      ({ st with stats := { st.stats with
          orders_processed := st.stats.orders_processed + 1 } } : EngineState).book o.side)
      { st with stats := { st.stats with
          orders_processed := st.stats.orders_processed + 1 } } o hcm
    rw [hstuck]
    split
    · exact ⟨rfl, rfl, fun _ => rfl⟩
    next hc =>
      exact ⟨rfl, rfl, fun h => absurd h (by simpa using hc)⟩

/-- Witness for C7: a concrete market buy against a book with bid liquidity
only: REJECTED, no ask consumed, bids untouched. -/
theorem market_order_never_rests_witness :
    (witMarketBuy.type = OrderType.MARKET ∧ bookWF witState.book) ∧
    (0 < (process_new_order witState witMarketBuy).2.remaining_quantity →
      (process_new_order witState witMarketBuy).2.status = OrderStatus.REJECTED) :=
  ⟨⟨by decide, by decide⟩,
   (market_order_never_rests witState witMarketBuy (by decide) (by decide)).1⟩

theorem sideIds_cons (l : PriceLevel) (ls : List PriceLevel) :
    sideIds (l :: ls) = l.orders.map Order.id ++ sideIds ls := by
  simp [sideIds]

/-- Complete analysis of one side of `OrderBook::cancel_order`: a failed
search leaves the side untouched and means the id is absent; a successful
one returns the stored order with status CANCELLED and removes exactly the
first occurrence of the id. -/
theorem cancelInSide_spec (ls : List PriceLevel) (i : Nat) :
    ((cancelInSide ls i).2 = none → (cancelInSide ls i).1 = ls ∧ i ∉ sideIds ls) ∧
    (∀ oc, (cancelInSide ls i).2 = some oc →
      (∃ x, (∃ l ∈ ls, x ∈ l.orders) ∧ x.id = i ∧
        oc = { x with status := OrderStatus.CANCELLED }) ∧
      sideIds (cancelInSide ls i).1 = (sideIds ls).erase i) := by
  induction ls with
  | nil =>
      constructor
      · intro _
        exact ⟨rfl, by simp [sideIds]⟩
      · intro oc h
        exact absurd h (by simp [cancelInSide])
  | cons l rest ih =>
      unfold cancelInSide
      rcases hfind : l.find_order i with _ | x
      · have hnotin : i ∉ l.orders.map Order.id := by
          intro hc
          obtain ⟨o2, ho2, hid⟩ := List.mem_map.1 hc
          unfold PriceLevel.find_order at hfind
          rw [List.find?_eq_none] at hfind
          have hne : ¬ o2.id = i := by simpa using hfind o2 ho2
          exact hne hid
        dsimp only
        constructor
        · intro h
          obtain ⟨h1, h2⟩ := ih.1 h
          refine ⟨by rw [h1], ?_⟩
          rw [sideIds_cons]
          intro hc
          rcases List.mem_append.1 hc with hc1 | hc2
          · exact hnotin hc1
          · exact h2 hc2
        · intro oc h
          obtain ⟨⟨x, ⟨l3, hl3, hx3⟩, hxi, hoceq⟩, herase⟩ := ih.2 oc h
          refine ⟨⟨x, ⟨l3, List.mem_cons_of_mem l hl3, hx3⟩, hxi, hoceq⟩, ?_⟩
          rw [sideIds_cons, sideIds_cons, herase, List.erase_append_right _ hnotin]
      · have hfind2 : l.orders.find? (fun o => decide (o.id = i)) = some x := hfind
        obtain ⟨hxid, pre, post, hdecomp, hprene, hrem⟩ := find_remove l.orders i x hfind2
        have hl2eq : l.remove_order { x with status := OrderStatus.CANCELLED }
            = ⟨l.price, l.total_quantity - x.remaining_quantity, pre ++ post⟩ := by
          unfold PriceLevel.remove_order
          dsimp only
          rw [show ({ x with status := OrderStatus.CANCELLED } : Order).id = x.id from rfl,
            hxid, hrem]
        have hxmem : x ∈ l.orders := by
          rw [hdecomp]
          exact List.mem_append.2 (Or.inr (List.mem_cons_self x post))
        have hidl : l.orders.map Order.id
            = pre.map Order.id ++ i :: post.map Order.id := by
          rw [hdecomp]
          simp [hxid]
        have hiprel : i ∉ pre.map Order.id := by
          intro hc
          obtain ⟨o2, ho2, hid2⟩ := List.mem_map.1 hc
          exact hprene o2 ho2 hid2
        have hilmem : i ∈ l.orders.map Order.id := by
          rw [hidl]
          exact List.mem_append.2 (Or.inr (List.mem_cons_self i _))
        have herasel : (l.orders.map Order.id).erase i
            = pre.map Order.id ++ post.map Order.id := by
          rw [hidl, List.erase_append_right _ hiprel, List.erase_cons_head]
        dsimp only
        rw [hl2eq]
        constructor
        · intro h
          exact absurd h (by simp)
        · intro oc h
          have hoc : oc = { x with status := OrderStatus.CANCELLED } :=
            (Option.some.inj h).symm
          refine ⟨⟨x, ⟨l, List.mem_cons_self l rest, hxmem⟩, hxid, hoc⟩, ?_⟩
          by_cases hemp : (⟨l.price, l.total_quantity - x.remaining_quantity,
              pre ++ post⟩ : PriceLevel).empty = true
          · rw [if_pos hemp]
            have hpp : pre.map Order.id ++ post.map Order.id = [] := by
              have h2 : pre ++ post = ([] : List Order) := by
                simpa [PriceLevel.empty] using hemp
              rw [← List.map_append, h2]
              rfl
            rw [sideIds_cons, List.erase_append_left _ hilmem, herasel, hpp]
            rfl
          · rw [if_neg hemp]
            rw [sideIds_cons, sideIds_cons, List.erase_append_left _ hilmem, herasel]
            show (pre ++ post).map Order.id ++ sideIds rest = _
            rw [List.map_append]

/-- Complete analysis of `OrderBook::cancel_order` over both sides. -/
theorem cancel_order_spec (b : OrderBook) (i : Nat) :
    ((b.cancel_order i).2 = none → (b.cancel_order i).1 = b ∧ i ∉ bookIds b) ∧
    (∀ oc, (b.cancel_order i).2 = some oc →
      (∃ x, (∃ l, (l ∈ b.bids ∨ l ∈ b.asks) ∧ x ∈ l.orders) ∧ x.id = i ∧
        oc = { x with status := OrderStatus.CANCELLED }) ∧
      bookIds (b.cancel_order i).1 = (bookIds b).erase i) := by
  have hb := cancelInSide_spec b.bids i
  have ha := cancelInSide_spec b.asks i
  unfold OrderBook.cancel_order
  split
  next bids2 o2 heq =>
    have hsome := hb.2 o2 (by rw [heq])
    constructor
    · intro h
      exact absurd h (by simp)
    · intro oc h
      have hoc : o2 = oc := Option.some.inj h
      subst hoc
      obtain ⟨⟨x, ⟨l3, hl3, hx3⟩, hxi, hoceq⟩, herase⟩ := hsome
      rw [heq] at herase
      refine ⟨⟨x, ⟨l3, Or.inl hl3, hx3⟩, hxi, hoceq⟩, ?_⟩
      show sideIds bids2 ++ sideIds b.asks = (sideIds b.bids ++ sideIds b.asks).erase i
      have hmem : i ∈ sideIds b.bids := by
        rw [← hxi]
        exact mem_sideIds.2 ⟨l3, hl3, x, hx3, rfl⟩
      rw [List.erase_append_left _ hmem]
      rw [show sideIds bids2 = (sideIds b.bids).erase i from herase]
  next fst heqn =>
    have hnb := hb.1 (by rw [heqn])
    split
    next asks2 o2 heq2 =>
      have hsome := ha.2 o2 (by rw [heq2])
      constructor
      · intro h
        exact absurd h (by simp)
      · intro oc h
        have hoc : o2 = oc := Option.some.inj h
        subst hoc
        obtain ⟨⟨x, ⟨l3, hl3, hx3⟩, hxi, hoceq⟩, herase⟩ := hsome
        rw [heq2] at herase
        refine ⟨⟨x, ⟨l3, Or.inr hl3, hx3⟩, hxi, hoceq⟩, ?_⟩
        show sideIds b.bids ++ sideIds asks2 = (sideIds b.bids ++ sideIds b.asks).erase i
        rw [List.erase_append_right _ hnb.2]
        rw [show sideIds asks2 = (sideIds b.asks).erase i from herase]
    next fst2 heqn2 =>
      have hna := ha.1 (by rw [heqn2])
      constructor
      · intro _
        refine ⟨rfl, ?_⟩
        intro hc
        rcases List.mem_append.1 hc with hc1 | hc2
        · exact hnb.2 hc1
        · exact hna.2 hc2
      · intro oc h
        exact absurd h (by simp)

/-- C6: under the book invariant, `OrderBook::cancel_order` succeeds exactly
when an active order with the requested id rests in the book; on success the
returned order has status CANCELLED and carries the requested id, the id is
detached from the book (the invariant — including erasure of empty levels —
is preserved), and `process_cancel_order` installs the new book and
increments `orders_cancelled`; for an unknown id it fails, the book is
unchanged and the engine state (statistics included) is untouched. -/
theorem cancel_semantics (st : EngineState) (i : Nat) (hwf : bookWF st.book) :
    ((st.book.cancel_order i).2.isSome = true ↔
      ∃ l, (l ∈ st.book.bids ∨ l ∈ st.book.asks) ∧
        ∃ x ∈ l.orders, x.id = i ∧ x.is_active = true) ∧
    (∀ oc, (st.book.cancel_order i).2 = some oc →
      oc.status = OrderStatus.CANCELLED ∧ oc.id = i ∧
      bookWF (st.book.cancel_order i).1 ∧
      bookIds (st.book.cancel_order i).1 = (bookIds st.book).erase i ∧
      process_cancel_order st i =
        { st with book := (st.book.cancel_order i).1,
                  stats := { st.stats with
                    orders_cancelled := st.stats.orders_cancelled + 1 } }) ∧
    ((st.book.cancel_order i).2 = none →
      (st.book.cancel_order i).1 = st.book ∧ process_cancel_order st i = st) := by
  have hspec := cancel_order_spec st.book i
  refine ⟨?_, ?_, ?_⟩
  · constructor
    · intro hsome
      rcases hopt : (st.book.cancel_order i).2 with _ | oc
      · rw [hopt] at hsome
        exact absurd hsome (by simp)
      · obtain ⟨⟨x, ⟨l3, hl3, hx3⟩, hxi, _⟩, _⟩ := hspec.2 oc hopt
        have hact : x.is_active = true := by
          rcases hl3 with hb | ha
          · exact ((hwf.1.2 l3 hb).2.1 x hx3).2.2.1
          · exact ((hwf.2.1.2 l3 ha).2.1 x hx3).2.2.1
        exact ⟨l3, hl3, x, hx3, hxi, hact⟩
    · intro hex
      obtain ⟨l3, hl3, x, hx3, hxi, _⟩ := hex
      rcases hopt : (st.book.cancel_order i).2 with _ | oc
      · have hnone := hspec.1 hopt
        have hmem : i ∈ bookIds st.book := by
          rw [bookIds, List.mem_append]
          rcases hl3 with hb | ha
          · exact Or.inl (mem_sideIds.2 ⟨l3, hb, x, hx3, hxi⟩)
          · exact Or.inr (mem_sideIds.2 ⟨l3, ha, x, hx3, hxi⟩)
        exact absurd hmem hnone.2
      · simp
  · intro oc hopt
    obtain ⟨⟨x, _, hxi, hoceq⟩, herase⟩ := hspec.2 oc hopt
    refine ⟨by rw [hoceq], by rw [hoceq]; exact hxi,
      wf_cancel st.book i hwf, herase, ?_⟩
    unfold process_cancel_order
    rw [hopt]
  · intro hopt
    refine ⟨(hspec.1 hopt).1, ?_⟩
    unfold process_cancel_order
    rw [hopt]

theorem cancel_semantics_witness :
    bookWF witState.book ∧
    ((witState.book.cancel_order 1).2.isSome = true ↔
      ∃ l, (l ∈ witState.book.bids ∨ l ∈ witState.book.asks) ∧
        ∃ x ∈ l.orders, x.id = 1 ∧ x.is_active = true) :=
  ⟨by decide, (cancel_semantics witState 1 (by decide)).1⟩

/-! ## Status transitions -/

theorem fillUpdate_step (o : Order) (q : Int) (hact : o.is_active = true) :
    Relation.ReflTransGen StatusStep o.status (fillUpdate o q).status := by
  rcases (is_active_iff o).1 hact with h | h <;>
    rcases fillUpdate_status o q with ⟨_, h2⟩ | ⟨_, h2⟩
  · rw [h, h2]
    exact Relation.ReflTransGen.single StatusStep.nf
  · rw [h, h2]
    exact Relation.ReflTransGen.single StatusStep.np
  · rw [h, h2]
    exact Relation.ReflTransGen.single StatusStep.pf
  · rw [h, h2]

theorem fillUpdate_filled_rem (o : Order) (q : Int)
    (h : (fillUpdate o q).status = OrderStatus.FILLED) :
    (fillUpdate o q).remaining_quantity ≤ 0 := by
  rcases fillUpdate_status o q with ⟨h1, _⟩ | ⟨_, h2⟩
  · have h3 := (is_filled_iff _).1 h1
    rw [Order.remaining_quantity]
    omega
  · rw [h2] at h
    exact absurd h (by decide)

theorem fillUpdate_not_cancelled (o : Order) (q : Int) :
    (fillUpdate o q).status ≠ OrderStatus.CANCELLED := by
  rcases fillUpdate_status o q with ⟨_, h2⟩ | ⟨_, h2⟩ <;> rw [h2] <;> decide

theorem matchLoop_status : ∀ (fuel : Nat) (st : EngineState) (o : Order),
    Relation.ReflTransGen StatusStep o.status (matchLoop fuel st o).2.status := by
  intro fuel
  induction fuel with
  | zero =>
      intro st o
      exact Relation.ReflTransGen.refl
  | succ n ih =>
      intro st o
      unfold matchLoop
      split
      next hguard =>
        rw [Bool.and_eq_true] at hguard
        split
        next hmat =>
          refine Relation.ReflTransGen.trans ?_ (ih (try_match st o).1 (try_match st o).2.1)
          rcases try_match_cases st o with hno | ⟨lvl, rest, r, ros, _, _, _, _, heq⟩
          · rw [hno] at hmat
            exact Bool.noConfusion hmat
          · rw [heq]
            exact fillUpdate_step o _ hguard.1
        next hmat =>
          rcases try_match_cases st o with hno | ⟨lvl, rest, r, ros, _, _, _, _, heq⟩
          · rw [hno]
          · rw [heq] at hmat
            exact absurd rfl hmat
      next hguard =>
        exact Relation.ReflTransGen.refl

/-- The market-order loop moves the incoming order's status only along
amended-DAG edges, keeps the invariant that a FILLED order has no
remainder, and never produces CANCELLED. -/
theorem marketLoop_status_inv : ∀ (fuel : Nat) (st : EngineState) (o : Order),
    (o.status = OrderStatus.FILLED → o.remaining_quantity ≤ 0) →
    o.status ≠ OrderStatus.CANCELLED →
    Relation.ReflTransGen StatusStep o.status (marketLoop fuel st o).2.status ∧
    ((marketLoop fuel st o).2.status = OrderStatus.FILLED →
      (marketLoop fuel st o).2.remaining_quantity ≤ 0) ∧
    (marketLoop fuel st o).2.status ≠ OrderStatus.CANCELLED := by
  intro fuel
  induction fuel with
  | zero =>
      intro st o h1 h2
      exact ⟨Relation.ReflTransGen.refl, h1, h2⟩
  | succ n ih =>
      intro st o h1 h2
      unfold marketLoop
      split
      next hguard =>
        rw [Bool.and_eq_true] at hguard
        split
        next hmat =>
          rcases try_match_cases st o with hno | ⟨lvl, rest, r, ros, _, _, _, _, heq⟩
          · rw [hno] at hmat
            exact Bool.noConfusion hmat
          · have hstep : Relation.ReflTransGen StatusStep o.status
                (try_match st o).2.1.status := by
              rw [heq]
              exact fillUpdate_step o _ hguard.1
            have hf : (try_match st o).2.1.status = OrderStatus.FILLED →
                (try_match st o).2.1.remaining_quantity ≤ 0 := by
              rw [heq]
              exact fillUpdate_filled_rem o _
            have hc : (try_match st o).2.1.status ≠ OrderStatus.CANCELLED := by
              rw [heq]
              exact fillUpdate_not_cancelled o _
            obtain ⟨ha, hb, hcc⟩ := ih (try_match st o).1 (try_match st o).2.1 hf hc
            exact ⟨Relation.ReflTransGen.trans hstep ha, hb, hcc⟩
        next hmat =>
          rcases try_match_cases st o with hno | ⟨lvl, rest, r, ros, _, _, _, _, heq⟩
          · rw [hno]
            refine ⟨?_, ?_, ?_⟩
            · dsimp only
              rcases (is_active_iff o).1 hguard.1 with h | h
              · rw [h]
                exact Relation.ReflTransGen.single StatusStep.nr
              · rw [h]
                exact Relation.ReflTransGen.single StatusStep.pr
            · dsimp only
              intro hfs
              exact OrderStatus.noConfusion hfs
            · dsimp only
              intro hcc
              exact OrderStatus.noConfusion hcc
          · rw [heq] at hmat
            exact absurd rfl hmat
      next hguard =>
        exact ⟨Relation.ReflTransGen.refl, h1, h2⟩

theorem add_order_status (b : OrderBook) (o : Order) :
    ((b.add_order o).2.2).status = o.status := by
  unfold OrderBook.add_order
  dsimp only
  split
  · rfl
  · split
    · rfl
    · rfl

theorem match_limit_order_status (st : EngineState) (o : Order) :
    Relation.ReflTransGen StatusStep o.status (match_limit_order st o).2.status := by
  unfold match_limit_order
  split
  next h =>
    dsimp only
    rw [add_order_status]
    exact matchLoop_status _ st o
  next h =>
    exact matchLoop_status _ st o

theorem match_market_order_status (st : EngineState) (o : Order)
    (hfq : o.status = OrderStatus.FILLED → o.remaining_quantity ≤ 0)
    (hnc : o.status ≠ OrderStatus.CANCELLED) :
    Relation.ReflTransGen StatusStep o.status (match_market_order st o).2.status := by
  obtain ⟨ha, hb, hc⟩ := marketLoop_status_inv (loopFuel st.book o.side) st o hfq hnc
  unfold match_market_order
  split
  next hrem =>
    dsimp only
    cases hs : (marketLoop (loopFuel st.book o.side) st o).2.status
    case NEW =>
      rw [hs] at ha
      exact Relation.ReflTransGen.trans ha
        (Relation.ReflTransGen.single StatusStep.nr)
    case PARTIALLY_FILLED =>
      rw [hs] at ha
      exact Relation.ReflTransGen.trans ha
        (Relation.ReflTransGen.single StatusStep.pr)
    case FILLED =>
      have h3 := hb hs
      have h4 := of_decide_eq_true hrem
      omega
    case CANCELLED =>
      exact absurd hs hc
    case REJECTED =>
      rw [hs] at ha
      exact ha
  next hrem =>
    exact ha

/-- C4 counterexample: processing the market buy for 100 against a book
whose only ask holds 50, the matching loop's one step leaves the incoming
order PARTIALLY_FILLED (a trade executed), the loop ends in exactly that
state, and `process_new_order` then returns the order REJECTED while half
filled — the transition PARTIALLY_FILLED → REJECTED, absent from the
claimed DAG. -/
theorem status_dag_counterexample :
    (try_match { witState3 with stats := ⟨2, 0, 0⟩ } witMarketBig).2.2 = true ∧
    (try_match { witState3 with stats := ⟨2, 0, 0⟩ } witMarketBig).2.1.status
      = OrderStatus.PARTIALLY_FILLED ∧
    marketLoop (loopFuel witState3.book OrderSide.BUY)
        { witState3 with stats := ⟨2, 0, 0⟩ } witMarketBig
      = ((try_match { witState3 with stats := ⟨2, 0, 0⟩ } witMarketBig).1,
         (try_match { witState3 with stats := ⟨2, 0, 0⟩ } witMarketBig).2.1) ∧
    (process_new_order witState3 witMarketBig).2.status = OrderStatus.REJECTED ∧
    (process_new_order witState3 witMarketBig).2.filled_quantity = 50 ∧
    (process_new_order witState3 witMarketBig).1.trades.length = 1 := by
  decide

/-- C4 (amended): order statuses move only along the edges of `StatusStep` —
the claimed DAG plus the extra edge PARTIALLY_FILLED → REJECTED that
`match_market_order` takes when liquidity runs out after a partial fill:
a NEW order processed by the engine ends in a status reachable from NEW
along those edges, each fill step moves an active order along them, and a
successful cancel moves the (active, under the book invariant) resting
order to CANCELLED along a single edge. -/
theorem status_dag_amended (st : EngineState) (o : Order) (i : Nat)
    (hwf : bookWF st.book) (hnew : o.status = OrderStatus.NEW) :
    Relation.ReflTransGen StatusStep OrderStatus.NEW
      (process_new_order st o).2.status ∧
    (∀ (o2 : Order) (q : Int), o2.is_active = true →
      Relation.ReflTransGen StatusStep o2.status (fillUpdate o2 q).status) ∧
    (∀ oc, (st.book.cancel_order i).2 = some oc →
      oc.status = OrderStatus.CANCELLED ∧
      ∃ x, (∃ l, (l ∈ st.book.bids ∨ l ∈ st.book.asks) ∧ x ∈ l.orders) ∧
        StatusStep x.status oc.status) := by
  refine ⟨?_, fun o2 q hact => fillUpdate_step o2 q hact, ?_⟩
  · rw [← hnew]
    unfold process_new_order
    split
    next htype =>
      exact match_market_order_status _ o
        (fun hf => absurd (hnew.symm.trans hf) (by decide))
        (fun hcc => absurd (hnew.symm.trans hcc) (by decide))
    next htype =>
      exact match_limit_order_status _ o
  · intro oc hopt
    obtain ⟨⟨x, ⟨l3, hl3, hx3⟩, hxi, hoceq⟩, _⟩ := (cancel_order_spec st.book i).2 oc hopt
    have hact : x.is_active = true := by
      rcases hl3 with hb | ha
      · exact ((hwf.1.2 l3 hb).2.1 x hx3).2.2.1
      · exact ((hwf.2.1.2 l3 ha).2.1 x hx3).2.2.1
    refine ⟨by rw [hoceq], x, ⟨l3, hl3, hx3⟩, ?_⟩
    rw [hoceq]
    rcases (is_active_iff x).1 hact with h | h
    · rw [h]
      exact StatusStep.nc
    · rw [h]
      exact StatusStep.pc

theorem status_dag_amended_witness :
    bookWF witState3.book ∧ witMarketBig.status = OrderStatus.NEW ∧
    Relation.ReflTransGen StatusStep OrderStatus.NEW
      (process_new_order witState3 witMarketBig).2.status :=
  ⟨by decide, rfl, (status_dag_amended witState3 witMarketBig 0 (by decide) rfl).1⟩

/-! ## Cancelling a freshly rested order -/

theorem find_order_append_fresh (xs : List Order) (o : Order)
    (h : ∀ x ∈ xs, x.id ≠ o.id) :
    (xs ++ [o]).find? (fun x => decide (x.id = o.id)) = some o := by
  induction xs with
  | nil => simp
  | cons x xs ih =>
      have hx : decide (x.id = o.id) = false := by
        simp [h x (List.mem_cons_self x xs)]
      rw [List.cons_append, List.find?_cons, hx]
      exact ih (fun y hy => h y (List.mem_cons_of_mem x hy))

theorem removeById_append (xs ys : List Order) (o : Order)
    (h : ∀ x ∈ xs, x.id ≠ o.id) :
    removeById (xs ++ o :: ys) o.id = (xs ++ ys, o.remaining_quantity) := by
  induction xs with
  | nil =>
      rw [List.nil_append, List.nil_append]
      unfold removeById
      rw [if_pos rfl]
  | cons x xs ih =>
      rw [List.cons_append]
      unfold removeById
      rw [if_neg (h x (List.mem_cons_self x xs))]
      dsimp only
      rw [ih (fun y hy => h y (List.mem_cons_of_mem x hy))]
      rfl

/-- Cancelling the single order of a singleton level erases the level. -/
theorem cancelInSide_single (p q : Int) (o : Order) (rest : List PriceLevel) :
    cancelInSide (⟨p, q, [o]⟩ :: rest) o.id
      = (rest, some { o with status := OrderStatus.CANCELLED }) := by
  have hfind : (⟨p, q, [o]⟩ : PriceLevel).find_order o.id = some o := by
    unfold PriceLevel.find_order
    simp
  have hrm : removeById [o] o.id = ([], o.remaining_quantity) := by
    unfold removeById
    rw [if_pos rfl]
  unfold cancelInSide
  rw [hfind]
  dsimp only
  unfold PriceLevel.remove_order
  dsimp only
  rw [hrm]
  dsimp only
  split
  next h => rfl
  next h => exact absurd rfl h

/-- Cancelling an order just appended to a non-empty level whose other ids
all differ removes exactly that order and restores the level. -/
theorem cancelInSide_append (l : PriceLevel) (o : Order) (rest : List PriceLevel)
    (hfresh : ∀ x ∈ l.orders, x.id ≠ o.id) (hne : l.orders ≠ []) :
    cancelInSide (l.add_order o :: rest) o.id
      = (l :: rest, some { o with status := OrderStatus.CANCELLED }) := by
  have hfind : (l.add_order o).find_order o.id = some o := by
    unfold PriceLevel.find_order PriceLevel.add_order
    dsimp only
    exact find_order_append_fresh l.orders o hfresh
  have hrm : removeById (l.orders ++ [o]) o.id = (l.orders, o.remaining_quantity) := by
    have h2 := removeById_append l.orders [] o hfresh
    simpa using h2
  unfold cancelInSide
  rw [hfind]
  dsimp only
  unfold PriceLevel.remove_order PriceLevel.add_order
  dsimp only
  rw [hrm]
  dsimp only
  rw [if_neg (by simp [PriceLevel.empty, hne])]
  rw [add_sub_cancel_right]

/-- Inserting a fresh order into a well-formed side and cancelling its id
restores the side exactly and reports the order CANCELLED. -/
theorem cancelInSide_insert (cmp : Int → Int → Bool) :
    ∀ (ls : List PriceLevel) (o : Order),
    o.id ∉ sideIds ls → (∀ l ∈ ls, l.orders ≠ []) →
    cancelInSide (insertOrder cmp ls o) o.id
      = (ls, some { o with status := OrderStatus.CANCELLED }) := by
  intro ls
  induction ls with
  | nil =>
      intro o _ _
      show cancelInSide [PriceLevel.add_order ⟨o.price, 0, []⟩ o] o.id = _
      have h1 : PriceLevel.add_order ⟨o.price, 0, []⟩ o
          = ⟨o.price, 0 + o.remaining_quantity, [o]⟩ := rfl
      rw [h1]
      exact cancelInSide_single o.price (0 + o.remaining_quantity) o []
  | cons l rest ih =>
      intro o hfresh hne
      have hfreshl : ∀ x ∈ l.orders, x.id ≠ o.id := by
        intro x hx hc
        exact hfresh (mem_sideIds.2 ⟨l, List.mem_cons_self l rest, x, hx, hc⟩)
      have hfreshr : o.id ∉ sideIds rest := by
        intro hc
        apply hfresh
        rw [sideIds_cons]
        exact List.mem_append.2 (Or.inr hc)
      unfold insertOrder
      split
      next hcmp =>
        have h1 : PriceLevel.add_order ⟨o.price, 0, []⟩ o
            = ⟨o.price, 0 + o.remaining_quantity, [o]⟩ := rfl
        rw [h1]
        exact cancelInSide_single o.price (0 + o.remaining_quantity) o (l :: rest)
      next hcmp =>
        split
        next hpeq =>
          exact cancelInSide_append l o rest hfreshl (hne l (List.mem_cons_self l rest))
        next hpeq =>
          have hfind : l.find_order o.id = none := by
            unfold PriceLevel.find_order
            rw [List.find?_eq_none]
            intro x hx
            simpa using hfreshl x hx
          unfold cancelInSide
          rw [hfind]
          dsimp only
          rw [ih o hfreshr (fun l2 hl2 => hne l2 (List.mem_cons_of_mem l hl2))]

/-- A non-crossing active limit order with remainder rests in the book. -/
theorem match_limit_order_rests (st : EngineState) (o : Order)
    (hnc : can_match st.book o = false)
    (hact : o.is_active = true) (hrem : 0 < o.remaining_quantity) :
    match_limit_order st o
      = ({ st with book := (st.book.add_order o).1 }, (st.book.add_order o).2.2) := by
  unfold match_limit_order
  rw [matchLoop_stuck (loopFuel st.book o.side) st o hnc]
  dsimp only
  rw [hact, decide_eq_true hrem]
  rw [if_pos (show (true && true) = true from rfl)]

theorem add_order_buy (b : OrderBook) (o o2 : Order)
    (hsym : o.symbol = b.symbol) (hside : o.side = OrderSide.BUY)
    (ho2 : o2 = { o with sequence_number := b.sequence_counter + 1 }) :
    b.add_order o
      = ({ b with
            bids := insertOrder bidBefore b.bids o2,
            sequence_counter := b.sequence_counter + 1 }, true, o2) := by
  subst ho2
  unfold OrderBook.add_order
  rw [if_neg (fun hne => hne hsym)]
  dsimp only
  rw [hside]

theorem add_order_sell (b : OrderBook) (o o2 : Order)
    (hsym : o.symbol = b.symbol) (hside : o.side = OrderSide.SELL)
    (ho2 : o2 = { o with sequence_number := b.sequence_counter + 1 }) :
    b.add_order o
      = ({ b with
            asks := insertOrder askBefore b.asks o2,
            sequence_counter := b.sequence_counter + 1 }, true, o2) := by
  subst ho2
  unfold OrderBook.add_order
  rw [if_neg (fun hne => hne hsym)]
  dsimp only
  rw [hside]

theorem cancel_inserted_buy (b : OrderBook) (o2 : Order)
    (hfb : o2.id ∉ sideIds b.bids)
    (hne : ∀ l ∈ b.bids, l.orders ≠ []) :
    OrderBook.cancel_order
      { b with bids := insertOrder bidBefore b.bids o2,
               sequence_counter := b.sequence_counter + 1 } o2.id
      = ({ b with sequence_counter := b.sequence_counter + 1 },
         some { o2 with status := OrderStatus.CANCELLED }) := by
  unfold OrderBook.cancel_order
  dsimp only
  rw [cancelInSide_insert bidBefore b.bids o2 hfb hne]

theorem cancel_inserted_sell (b : OrderBook) (o2 : Order)
    (hfb : ∀ l ∈ b.bids, ∀ x ∈ l.orders, x.id ≠ o2.id)
    (hfa : o2.id ∉ sideIds b.asks)
    (hne : ∀ l ∈ b.asks, l.orders ≠ []) :
    OrderBook.cancel_order
      { b with asks := insertOrder askBefore b.asks o2,
               sequence_counter := b.sequence_counter + 1 } o2.id
      = ({ b with sequence_counter := b.sequence_counter + 1 },
         some { o2 with status := OrderStatus.CANCELLED }) := by
  unfold OrderBook.cancel_order
  dsimp only
  rw [cancelInSide_not_found hfb,
    cancelInSide_insert askBefore b.asks o2 hfa hne]

/-- C8: on a well-formed book, processing a fresh non-crossing NEW limit
order and then cancelling it restores the book's levels on both sides,
leaves the trade log untouched, and bumps `orders_processed` and
`orders_cancelled` by exactly one each.  (The book's private
`sequence_counter`, observable through no public accessor, has advanced
by one.) -/
theorem limit_then_cancel (st : EngineState) (o : Order)
    (hwf : bookWF st.book)
    (htype : o.type = OrderType.LIMIT)
    (hstat : o.status = OrderStatus.NEW)
    (hfill : o.filled_quantity = 0)
    (hqty : 0 < o.quantity)
    (hsym : o.symbol = st.book.symbol)
    (hnc : can_match st.book o = false)
    (hfresh : o.id ∉ bookIds st.book) :
    (process_cancel_order (process_new_order st o).1 o.id).book.bids
      = st.book.bids ∧
    (process_cancel_order (process_new_order st o).1 o.id).book.asks
      = st.book.asks ∧
    (process_cancel_order (process_new_order st o).1 o.id).trades = st.trades ∧
    (process_cancel_order (process_new_order st o).1 o.id).stats.orders_processed
      = st.stats.orders_processed + 1 ∧
    (process_cancel_order (process_new_order st o).1 o.id).stats.orders_cancelled
      = st.stats.orders_cancelled + 1 ∧
    (process_cancel_order (process_new_order st o).1 o.id).stats.trades_executed
      = st.stats.trades_executed := by
  have hmkt : ¬ o.type = OrderType.MARKET := by
    rw [htype]
    decide
  have hact : o.is_active = true := (is_active_iff o).2 (Or.inl hstat)
  have hrem : 0 < o.remaining_quantity := by
    rw [Order.remaining_quantity, hfill]
    omega
  have hneb : ∀ l ∈ st.book.bids, l.orders ≠ [] := fun l hl => (hwf.1.2 l hl).1
  have hnea : ∀ l ∈ st.book.asks, l.orders ≠ [] := fun l hl => (hwf.2.1.2 l hl).1
  cases hside : o.side
  case BUY =>
    have hst1 : (process_new_order st o).1
        = { st with
            book := { st.book with
              bids := insertOrder bidBefore st.book.bids
                { o with sequence_number := st.book.sequence_counter + 1 },
              sequence_counter := st.book.sequence_counter + 1 },
            stats := { st.stats with
              orders_processed := st.stats.orders_processed + 1 } } := by
      unfold process_new_order
      rw [if_neg hmkt]
      rw [match_limit_order_rests { st with stats := { st.stats with
        orders_processed := st.stats.orders_processed + 1 } } o hnc hact hrem]
      dsimp only
      rw [add_order_buy st.book o _ hsym hside rfl]
    have hfb : ({ o with sequence_number := st.book.sequence_counter + 1 } :
        Order).id ∉ sideIds st.book.bids :=
      fun hc => hfresh (List.mem_append.2 (Or.inl hc))
    have hcan : ((process_new_order st o).1.book.cancel_order o.id)
        = ({ st.book with sequence_counter := st.book.sequence_counter + 1 },
           some { o with
                  status := OrderStatus.CANCELLED,
                  sequence_number := st.book.sequence_counter + 1 }) := by
      rw [hst1]
      dsimp only
      exact cancel_inserted_buy st.book
        { o with sequence_number := st.book.sequence_counter + 1 } hfb hneb
    have heq : process_cancel_order (process_new_order st o).1 o.id
        = { st with
            book := { st.book with
              sequence_counter := st.book.sequence_counter + 1 },
            stats := { st.stats with
              orders_processed := st.stats.orders_processed + 1,
              orders_cancelled := st.stats.orders_cancelled + 1 } } := by
      unfold process_cancel_order
      rw [hcan]
      dsimp only
      rw [hst1]
    rw [heq]
    exact ⟨rfl, rfl, rfl, rfl, rfl, rfl⟩
  case SELL =>
    have hst1 : (process_new_order st o).1
        = { st with
            book := { st.book with
              asks := insertOrder askBefore st.book.asks
                { o with sequence_number := st.book.sequence_counter + 1 },
              sequence_counter := st.book.sequence_counter + 1 },
            stats := { st.stats with
              orders_processed := st.stats.orders_processed + 1 } } := by
      unfold process_new_order
      rw [if_neg hmkt]
      rw [match_limit_order_rests { st with stats := { st.stats with
        orders_processed := st.stats.orders_processed + 1 } } o hnc hact hrem]
      dsimp only
      rw [add_order_sell st.book o _ hsym hside rfl]
    have hfb : ∀ l ∈ st.book.bids, ∀ x ∈ l.orders,
        x.id ≠ ({ o with sequence_number := st.book.sequence_counter + 1 } :
          Order).id :=
      fun l hl x hx hc =>
        hfresh (List.mem_append.2 (Or.inl (mem_sideIds.2 ⟨l, hl, x, hx, hc⟩)))
    have hfa : ({ o with sequence_number := st.book.sequence_counter + 1 } :
        Order).id ∉ sideIds st.book.asks :=
      fun hc => hfresh (List.mem_append.2 (Or.inr hc))
    have hcan : ((process_new_order st o).1.book.cancel_order o.id)
        = ({ st.book with sequence_counter := st.book.sequence_counter + 1 },
           some { o with
                  status := OrderStatus.CANCELLED,
                  sequence_number := st.book.sequence_counter + 1 }) := by
      rw [hst1]
      dsimp only
      exact cancel_inserted_sell st.book
        { o with sequence_number := st.book.sequence_counter + 1 } hfb hfa hnea
    have heq : process_cancel_order (process_new_order st o).1 o.id
        = { st with
            book := { st.book with
              sequence_counter := st.book.sequence_counter + 1 },
            stats := { st.stats with
              orders_processed := st.stats.orders_processed + 1,
              orders_cancelled := st.stats.orders_cancelled + 1 } } := by
      unfold process_cancel_order
      rw [hcan]
      dsimp only
      rw [hst1]
    rw [heq]
    exact ⟨rfl, rfl, rfl, rfl, rfl, rfl⟩

theorem limit_then_cancel_witness :
    bookWF witState.book ∧ witNewSell.type = OrderType.LIMIT ∧
    witNewSell.status = OrderStatus.NEW ∧ witNewSell.filled_quantity = 0 ∧
    0 < witNewSell.quantity ∧ witNewSell.symbol = witState.book.symbol ∧
    can_match witState.book witNewSell = false ∧
    witNewSell.id ∉ bookIds witState.book ∧
    (process_cancel_order (process_new_order witState witNewSell).1
      witNewSell.id).trades = witState.trades :=
  ⟨by decide, rfl, rfl, rfl, by decide, rfl, by decide, by decide,
   (limit_then_cancel witState witNewSell (by decide) rfl rfl rfl (by decide)
     rfl (by decide) (by decide)).2.2.1⟩

/-! ## Price-time priority -/

theorem matchedBefore_nil (s : OrderSide) (a b : Nat) :
    matchedBefore s a b [] := by
  intro pre t post h _
  simp at h

theorem matchedBefore_snoc (s : OrderSide) (a b : Nat) (tr : List Trade) (t : Trade)
    (h : matchedBefore s a b tr)
    (ht : passiveId s t ≠ b ∨ ∃ t2 ∈ tr, passiveId s t2 = a) :
    matchedBefore s a b (tr ++ [t]) := by
  intro pre t2 post hdec hpb
  rcases List.append_eq_append_iff.1 hdec with ⟨a2, ha1, ha2⟩ | ⟨c2, hc1, hc2⟩
  · rcases a2 with _ | ⟨a0, a3⟩
    · rw [List.append_nil] at ha1
      rw [List.nil_append] at ha2
      injection ha2 with h1 h2
      rcases ht with hnb | ⟨t3, ht3, hp3⟩
      · rw [← h1] at hpb
        exact absurd hpb hnb
      · refine ⟨t3, ?_, hp3⟩
        rw [ha1]
        exact ht3
    · rw [List.cons_append] at ha2
      injection ha2 with h1 h2
      exact absurd h2.symm (by simp)
  · rcases c2 with _ | ⟨c0, c3⟩
    · rw [List.append_nil] at hc1
      rw [List.nil_append] at hc2
      injection hc2 with h1 h2
      rcases ht with hnb | ⟨t3, ht3, hp3⟩
      · rw [h1] at hpb
        exact absurd hpb hnb
      · refine ⟨t3, ?_, hp3⟩
        rw [← hc1]
        exact ht3
    · rw [List.cons_append] at hc2
      injection hc2 with h1 h2
      subst h1
      exact h pre t2 c3 (by rw [hc1]) hpb

/-- If `a` rests strictly before `b` on a side with no duplicate ids and the
front of the best level is not `a`, it is not `b` either. -/
theorem restsBefore_front_ne (lvl : PriceLevel) (rest : List PriceLevel)
    (r : Order) (ros : List Order) (a b : Nat)
    (hlvl : lvl.orders = r :: ros)
    (hnd : (sideIds (lvl :: rest)).Nodup)
    (hrb : restsBefore (lvl :: rest) a b)
    (hra : r.id ≠ a) : r.id ≠ b := by
  obtain ⟨l0, hl0, pre, x, mid, y, post, hdec, hxa, hyb⟩ := hrb
  intro hb
  have hids : sideIds (lvl :: rest) = r.id :: (ros.map Order.id ++ sideIds rest) := by
    rw [sideIds_cons, hlvl]
    rfl
  have hnd2 : (r.id :: (ros.map Order.id ++ sideIds rest)).Nodup := by
    rw [← hids]
    exact hnd
  have hnotin : r.id ∉ ros.map Order.id ++ sideIds rest := (List.nodup_cons.1 hnd2).1
  rcases List.mem_cons.1 hl0 with heq0 | hmem0
  · subst heq0
    rw [hlvl] at hdec
    rcases pre with _ | ⟨p0, pre2⟩
    · rw [List.nil_append] at hdec
      injection hdec with h1 h2
      apply hra
      rw [h1]
      exact hxa
    · rw [List.cons_append] at hdec
      injection hdec with h1 h2
      apply hnotin
      apply List.mem_append.2
      left
      apply List.mem_map.2
      refine ⟨y, ?_, hyb.trans hb.symm⟩
      rw [h2]
      simp
  · apply hnotin
    apply List.mem_append.2
    right
    apply mem_sideIds.2
    refine ⟨l0, hmem0, y, ?_, hyb.trans hb.symm⟩
    rw [hdec]
    simp

/-- The side-level effect of one matched `try_match` step: no duplicate ids
are introduced, and when `a` rests before `b` and the consumed front is not
`a`, the front is not `b` either and `a` still rests before `b`. -/
theorem stepped_priority_facts (lvl : PriceLevel) (rest : List PriceLevel)
    (r : Order) (ros : List Order) (m : Int) (a b : Nat)
    (hlvl : lvl.orders = r :: ros)
    (hnd : (sideIds (lvl :: rest)).Nodup) :
    (sideIds (if (fillUpdate r m).is_filled then
        (if ros.isEmpty then rest
         else ⟨lvl.price, lvl.total_quantity - r.remaining_quantity, ros⟩ :: rest)
      else ⟨lvl.price, lvl.total_quantity + -m, fillUpdate r m :: ros⟩ :: rest)).Nodup ∧
    (restsBefore (lvl :: rest) a b → r.id ≠ a →
      r.id ≠ b ∧ restsBefore (if (fillUpdate r m).is_filled then
        (if ros.isEmpty then rest
         else ⟨lvl.price, lvl.total_quantity - r.remaining_quantity, ros⟩ :: rest)
      else ⟨lvl.price, lvl.total_quantity + -m, fillUpdate r m :: ros⟩ :: rest) a b) := by
  have hids : sideIds (lvl :: rest) = r.id :: (ros.map Order.id ++ sideIds rest) := by
    rw [sideIds_cons, hlvl]
    rfl
  have hnd2 : (r.id :: (ros.map Order.id ++ sideIds rest)).Nodup := by
    rw [← hids]
    exact hnd
  have htail : (ros.map Order.id ++ sideIds rest).Nodup := (List.nodup_cons.1 hnd2).2
  constructor
  · split
    · split
      · exact List.Nodup.of_append_right htail
      · rw [sideIds_cons]
        exact htail
    · rw [sideIds_cons, List.map_cons, fillUpdate_id, List.cons_append]
      exact hnd2
  · intro hrb hra
    refine ⟨restsBefore_front_ne lvl rest r ros a b hlvl hnd hrb hra, ?_⟩
    obtain ⟨l0, hl0, pre, x, mid, y, post, hdec, hxa, hyb⟩ := hrb
    rcases List.mem_cons.1 hl0 with heq0 | hmem0
    · rw [heq0] at hdec
      rw [hlvl] at hdec
      rcases pre with _ | ⟨p0, pre2⟩
      · rw [List.nil_append] at hdec
        injection hdec with h1 h2
        exact absurd (by rw [h1]; exact hxa) hra
      · rw [List.cons_append] at hdec
        injection hdec with h1 h2
        have hrosne : ros.isEmpty = false := by
          rw [h2]
          cases pre2 <;> rfl
        split
        next hf =>
          rw [if_neg (by rw [hrosne]; exact Bool.false_ne_true)]
          exact ⟨⟨lvl.price, lvl.total_quantity - r.remaining_quantity, ros⟩,
            List.mem_cons_self _ _, pre2, x, mid, y, post, h2, hxa, hyb⟩
        next hf =>
          refine ⟨⟨lvl.price, lvl.total_quantity + -m, fillUpdate r m :: ros⟩,
            List.mem_cons_self _ _, fillUpdate r m :: pre2, x, mid, y, post, ?_, hxa, hyb⟩
          show fillUpdate r m :: ros = (fillUpdate r m :: pre2) ++ x :: mid ++ y :: post
          simp [h2]
    · split
      · split
        · exact ⟨l0, hmem0, pre, x, mid, y, post, hdec, hxa, hyb⟩
        · exact ⟨l0, List.mem_cons_of_mem _ hmem0, pre, x, mid, y, post, hdec, hxa, hyb⟩
      · exact ⟨l0, List.mem_cons_of_mem _ hmem0, pre, x, mid, y, post, hdec, hxa, hyb⟩

/-- One matched `try_match` step appends exactly one trade whose passive
party is the front of the best opposing level; the invariant, the absence
of duplicate ids, and price-time priority facts are carried to the new
state. -/
theorem try_match_step_priority (st : EngineState) (o : Order) (s : OrderSide)
    (a b : Nat) (hs : o.side = s) (hwf : bookWF st.book)
    (hnd : (sideIds (opposing st.book s)).Nodup)
    (hmat : (try_match st o).2.2 = true) :
    ∃ t, (try_match st o).1.trades = st.trades ++ [t] ∧
      bookWF (try_match st o).1.book ∧
      (sideIds (opposing (try_match st o).1.book s)).Nodup ∧
      (restsBefore (opposing st.book s) a b →
        passiveId s t = a ∨
        (passiveId s t ≠ b ∧
          restsBefore (opposing (try_match st o).1.book s) a b)) := by
  rcases try_match_cases st o with hno | ⟨lvl, rest, r, ros, hopp, hlvl, hact, hpr, heq⟩
  · rw [hno] at hmat
    exact Bool.noConfusion hmat
  · rw [hs] at hopp
    have hpassive : ∀ tid m, passiveId s (sideTrade o.side tid o r m) = r.id := by
      intro tid m
      rw [hs]
      cases s <;> rfl
    cases s
    case BUY =>
      have hasks : st.book.asks = lvl :: rest := hopp
      have hlwf : levelWF OrderSide.SELL lvl :=
        hwf.2.1.2 lvl (by rw [hasks]; exact List.mem_cons_self lvl rest)
      obtain ⟨hp, hside2, _, _, _⟩ := levelWF_front OrderSide.SELL lvl r ros hlvl hlwf
      have hnd2 : (sideIds (lvl :: rest)).Nodup := by
        rw [← hasks]
        exact hnd
      have hfacts := stepped_priority_facts lvl rest r ros
        (min o.remaining_quantity r.remaining_quantity) a b hlvl hnd2
      refine ⟨sideTrade o.side (st.trade_id_counter + 1) o r
        (min o.remaining_quantity r.remaining_quantity), ?_, ?_, ?_, ?_⟩
      · rw [heq]
      · exact (try_match_book_facts st o hwf).1
      · rw [heq]
        dsimp only
        rw [hs, steppedBook_buy_eq st.book lvl rest ros r _ hp hside2]
        exact hfacts.1
      · intro hrb
        have hrb2 : restsBefore (lvl :: rest) a b := by
          rw [← hasks]
          exact hrb
        by_cases hra : r.id = a
        · left
          rw [hpassive]
          exact hra
        · right
          obtain ⟨hnb, hrb3⟩ := hfacts.2 hrb2 hra
          constructor
          · rw [hpassive]
            exact hnb
          · rw [heq]
            dsimp only
            rw [hs, steppedBook_buy_eq st.book lvl rest ros r _ hp hside2]
            exact hrb3
    case SELL =>
      have hbids : st.book.bids = lvl :: rest := hopp
      have hlwf : levelWF OrderSide.BUY lvl :=
        hwf.1.2 lvl (by rw [hbids]; exact List.mem_cons_self lvl rest)
      obtain ⟨hp, hside2, _, _, _⟩ := levelWF_front OrderSide.BUY lvl r ros hlvl hlwf
      have hnd2 : (sideIds (lvl :: rest)).Nodup := by
        rw [← hbids]
        exact hnd
      have hfacts := stepped_priority_facts lvl rest r ros
        (min o.remaining_quantity r.remaining_quantity) a b hlvl hnd2
      refine ⟨sideTrade o.side (st.trade_id_counter + 1) o r
        (min o.remaining_quantity r.remaining_quantity), ?_, ?_, ?_, ?_⟩
      · rw [heq]
      · exact (try_match_book_facts st o hwf).1
      · rw [heq]
        dsimp only
        rw [hs, steppedBook_sell_eq st.book lvl rest ros r _ hp hside2]
        exact hfacts.1
      · intro hrb
        have hrb2 : restsBefore (lvl :: rest) a b := by
          rw [← hbids]
          exact hrb
        by_cases hra : r.id = a
        · left
          rw [hpassive]
          exact hra
        · right
          obtain ⟨hnb, hrb3⟩ := hfacts.2 hrb2 hra
          constructor
          · rw [hpassive]
            exact hnb
          · rw [heq]
            dsimp only
            rw [hs, steppedBook_sell_eq st.book lvl rest ros r _ hp hside2]
            exact hrb3

theorem matchLoop_priority : ∀ (fuel : Nat) (st : EngineState) (o : Order)
    (s : OrderSide) (base newT : List Trade) (a b : Nat),
    o.side = s → a ≠ b → bookWF st.book →
    (sideIds (opposing st.book s)).Nodup →
    st.trades = base ++ newT →
    matchedBefore s a b newT →
    (restsBefore (opposing st.book s) a b ∨ ∃ t ∈ newT, passiveId s t = a) →
    ∃ newT2, (matchLoop fuel st o).1.trades = base ++ newT2 ∧
      matchedBefore s a b newT2 := by
  intro fuel
  induction fuel with
  | zero =>
      intro st o s base newT a b hs hne hwf hnd htr hmb hinv
      exact ⟨newT, htr, hmb⟩
  | succ n ih =>
      intro st o s base newT a b hs hne hwf hnd htr hmb hinv
      unfold matchLoop
      split
      next hguard =>
        split
        next hmat =>
          obtain ⟨t, htr2, hwf2, hnd2, himp⟩ :=
            try_match_step_priority st o s a b hs hwf hnd hmat
          have hmb2 : matchedBefore s a b (newT ++ [t]) := by
            apply matchedBefore_snoc s a b newT t hmb
            rcases hinv with hrb | hex
            · by_cases hpa : passiveId s t = a
              · exact Or.inl (fun hc => hne (hpa.symm.trans hc))
              · rcases himp hrb with hpa2 | ⟨hnb, _⟩
                · exact absurd hpa2 hpa
                · exact Or.inl hnb
            · exact Or.inr hex
          have hinv2 : restsBefore (opposing (try_match st o).1.book s) a b ∨
              ∃ t2 ∈ newT ++ [t], passiveId s t2 = a := by
            rcases hinv with hrb | hex
            · rcases himp hrb with hpa | ⟨_, hrb2⟩
              · exact Or.inr ⟨t, List.mem_append.2 (Or.inr (List.mem_cons_self t [])), hpa⟩
              · exact Or.inl hrb2
            · obtain ⟨t2, ht2, hp2⟩ := hex
              exact Or.inr ⟨t2, List.mem_append.2 (Or.inl ht2), hp2⟩
          have htr3 : (try_match st o).1.trades = base ++ (newT ++ [t]) := by
            rw [htr2, htr, List.append_assoc]
          exact ih (try_match st o).1 (try_match st o).2.1 s base (newT ++ [t]) a b
            ((try_match_side st o).trans hs) hne hwf2 hnd2 htr3 hmb2 hinv2
        next hmat =>
          rcases try_match_cases st o with hno | ⟨lvl, rest, r, ros, _, _, _, _, heq⟩
          · rw [hno]
            exact ⟨newT, htr, hmb⟩
          · rw [heq] at hmat
            exact absurd rfl hmat
      next hguard =>
        exact ⟨newT, htr, hmb⟩

theorem marketLoop_priority : ∀ (fuel : Nat) (st : EngineState) (o : Order)
    (s : OrderSide) (base newT : List Trade) (a b : Nat),
    o.side = s → a ≠ b → bookWF st.book →
    (sideIds (opposing st.book s)).Nodup →
    st.trades = base ++ newT →
    matchedBefore s a b newT →
    (restsBefore (opposing st.book s) a b ∨ ∃ t ∈ newT, passiveId s t = a) →
    ∃ newT2, (marketLoop fuel st o).1.trades = base ++ newT2 ∧
      matchedBefore s a b newT2 := by
  intro fuel
  induction fuel with
  | zero =>
      intro st o s base newT a b hs hne hwf hnd htr hmb hinv
      exact ⟨newT, htr, hmb⟩
  | succ n ih =>
      intro st o s base newT a b hs hne hwf hnd htr hmb hinv
      unfold marketLoop
      split
      next hguard =>
        split
        next hmat =>
          obtain ⟨t, htr2, hwf2, hnd2, himp⟩ :=
            try_match_step_priority st o s a b hs hwf hnd hmat
          have hmb2 : matchedBefore s a b (newT ++ [t]) := by
            apply matchedBefore_snoc s a b newT t hmb
            rcases hinv with hrb | hex
            · by_cases hpa : passiveId s t = a
              · exact Or.inl (fun hc => hne (hpa.symm.trans hc))
              · rcases himp hrb with hpa2 | ⟨hnb, _⟩
                · exact absurd hpa2 hpa
                · exact Or.inl hnb
            · exact Or.inr hex
          have hinv2 : restsBefore (opposing (try_match st o).1.book s) a b ∨
              ∃ t2 ∈ newT ++ [t], passiveId s t2 = a := by
            rcases hinv with hrb | hex
            · rcases himp hrb with hpa | ⟨_, hrb2⟩
              · exact Or.inr ⟨t, List.mem_append.2 (Or.inr (List.mem_cons_self t [])), hpa⟩
              · exact Or.inl hrb2
            · obtain ⟨t2, ht2, hp2⟩ := hex
              exact Or.inr ⟨t2, List.mem_append.2 (Or.inl ht2), hp2⟩
          have htr3 : (try_match st o).1.trades = base ++ (newT ++ [t]) := by
            rw [htr2, htr, List.append_assoc]
          exact ih (try_match st o).1 (try_match st o).2.1 s base (newT ++ [t]) a b
            ((try_match_side st o).trans hs) hne hwf2 hnd2 htr3 hmb2 hinv2
        next hmat =>
          rcases try_match_cases st o with hno | ⟨lvl, rest, r, ros, _, _, _, _, heq⟩
          · rw [hno]
            exact ⟨newT, htr, hmb⟩
          · rw [heq] at hmat
            exact absurd rfl hmat
      next hguard =>
        exact ⟨newT, htr, hmb⟩

/-- C3: price-time priority.  If order `a` rests strictly before order `b`
within a single price level of the side opposing the incoming order (same
price, earlier queue position) and the book carries no duplicate ids, then
among the trades emitted while processing the incoming order, any trade
that consumes `b` as the passive party is preceded by a trade that consumed
`a`: the oldest order at a level always matches first. -/
theorem price_time_priority (st : EngineState) (o : Order) (a b : Nat)
    (hwf : bookWF st.book)
    (hnd : (sideIds (opposing st.book o.side)).Nodup)
    (hab : restsBefore (opposing st.book o.side) a b)
    (hne : a ≠ b) :
    ∃ newT, (process_new_order st o).1.trades = st.trades ++ newT ∧
      matchedBefore o.side a b newT := by
  unfold process_new_order
  split
  next htype =>
    unfold match_market_order
    obtain ⟨newT2, htr, hmb⟩ := marketLoop_priority
      (loopFuel { st with stats := { st.stats with
        orders_processed := st.stats.orders_processed + 1 } }.book o.side)
      { st with stats := { st.stats with
        orders_processed := st.stats.orders_processed + 1 } } o o.side st.trades [] a b
      rfl hne hwf hnd (List.append_nil st.trades).symm (matchedBefore_nil o.side a b)
      (Or.inl hab)
    split
    next hrem => exact ⟨newT2, htr, hmb⟩
    next hrem => exact ⟨newT2, htr, hmb⟩
  next htype =>
    unfold match_limit_order
    obtain ⟨newT2, htr, hmb⟩ := matchLoop_priority
      (loopFuel { st with stats := { st.stats with
        orders_processed := st.stats.orders_processed + 1 } }.book o.side)
      { st with stats := { st.stats with
        orders_processed := st.stats.orders_processed + 1 } } o o.side st.trades [] a b
      rfl hne hwf hnd (List.append_nil st.trades).symm (matchedBefore_nil o.side a b)
      (Or.inl hab)
    split
    next hcond => exact ⟨newT2, htr, hmb⟩
    next hcond => exact ⟨newT2, htr, hmb⟩

theorem price_time_priority_witness :
    bookWF witState4.book ∧
    (sideIds (opposing witState4.book witBuyAgg.side)).Nodup ∧
    restsBefore (opposing witState4.book witBuyAgg.side) 10 11 ∧
    ∃ newT, (process_new_order witState4 witBuyAgg).1.trades
      = witState4.trades ++ newT ∧ matchedBefore witBuyAgg.side 10 11 newT :=
  ⟨by decide, by decide,
   ⟨⟨100, 12, [witAskA, witAskB]⟩, by decide, [], witAskA, [], witAskB, [],
    rfl, rfl, rfl⟩,
   price_time_priority witState4 witBuyAgg 10 11 (by decide) (by decide)
     ⟨⟨100, 12, [witAskA, witAskB]⟩, by decide, [], witAskA, [], witAskB, [],
      rfl, rfl, rfl⟩
     (by decide)⟩

/-- C1: every match executed by the engine trades at the resting (passive)
order's price, for the minimum of the two remaining quantities; the buy and
sell ids are taken from the two parties; in particular a marketable BUY
against best ask Q trades exactly at Q, and a marketable SELL against best
bid Q trades exactly at Q. -/
theorem match_at_resting_price (st : EngineState) (o : Order)
    (hwf : bookWF st.book) (hmat : (try_match st o).2.2 = true) :
    ∃ r, bestOpposingFront st.book o.side = some r ∧
      ∃ t, (try_match st o).1.trades = st.trades ++ [t] ∧
        t.price = r.price ∧
        t.quantity = min o.remaining_quantity r.remaining_quantity ∧
        (o.side = OrderSide.BUY → t.buy_order_id = o.id ∧ t.sell_order_id = r.id ∧
          ∀ q, st.book.best_ask = some q → t.price = q) ∧
        (o.side = OrderSide.SELL → t.buy_order_id = r.id ∧ t.sell_order_id = o.id ∧
          ∀ q, st.book.best_bid = some q → t.price = q) := by
  rcases try_match_cases st o with h | ⟨lvl, rest, r, ros, hopp, hlvl, hact, hpr, heq⟩
  · rw [h] at hmat
    exact Bool.noConfusion hmat
  · cases hside : o.side
    · have hasks : st.book.asks = lvl :: rest := by rw [hside] at hopp; exact hopp
      rw [hside] at heq
      have hp : r.price = lvl.price :=
        (levelWF_front OrderSide.SELL lvl r ros hlvl
          (hwf.2.1.2 lvl (by rw [hasks]; exact List.mem_cons_self lvl rest))).1
      refine ⟨r, ?_, ?_⟩
      · simp [bestOpposingFront, opposing, hasks, hlvl]
      · rw [heq]
        refine ⟨sideTrade OrderSide.BUY (st.trade_id_counter + 1) o r
          (min o.remaining_quantity r.remaining_quantity), rfl, rfl, rfl, ?_,
          fun hs => nomatch hs⟩
        intro _
        refine ⟨rfl, rfl, ?_⟩
        intro q hq
        rw [OrderBook.best_ask, hasks] at hq
        have hq2 : q = lvl.price := by simpa using hq.symm
        show r.price = q
        rw [hq2, hp]
    · have hbids : st.book.bids = lvl :: rest := by rw [hside] at hopp; exact hopp
      rw [hside] at heq
      have hp : r.price = lvl.price :=
        (levelWF_front OrderSide.BUY lvl r ros hlvl
          (hwf.1.2 lvl (by rw [hbids]; exact List.mem_cons_self lvl rest))).1
      refine ⟨r, ?_, ?_⟩
      · simp [bestOpposingFront, opposing, hbids, hlvl]
      · rw [heq]
        refine ⟨sideTrade OrderSide.SELL (st.trade_id_counter + 1) o r
          (min o.remaining_quantity r.remaining_quantity), rfl, rfl, rfl,
          (fun hs => nomatch hs), ?_⟩
        intro _
        refine ⟨rfl, rfl, ?_⟩
        intro q hq
        rw [OrderBook.best_bid, hbids] at hq
        have hq2 : q = lvl.price := by simpa using hq.symm
        show r.price = q
        rw [hq2, hp]

/-- Witness for C1: a crossing buy against a concrete two-sided book
produces its trade at the resting ask's price. -/
theorem match_at_resting_price_witness :
    (bookWF witState2.book ∧ (try_match witState2 witBuyCross).2.2 = true) ∧
    (∃ r, bestOpposingFront witState2.book witBuyCross.side = some r ∧
      ∃ t, (try_match witState2 witBuyCross).1.trades = witState2.trades ++ [t] ∧
        t.price = r.price ∧
        t.quantity = min witBuyCross.remaining_quantity r.remaining_quantity ∧
        (witBuyCross.side = OrderSide.BUY →
          t.buy_order_id = witBuyCross.id ∧ t.sell_order_id = r.id ∧
          ∀ q, witState2.book.best_ask = some q → t.price = q) ∧
        (witBuyCross.side = OrderSide.SELL →
          t.buy_order_id = r.id ∧ t.sell_order_id = witBuyCross.id ∧
          ∀ q, witState2.book.best_bid = some q → t.price = q)) :=
  ⟨⟨by decide, by decide⟩,
   match_at_resting_price witState2 witBuyCross (by decide) (by decide)⟩

end Falcon
